import Mathlib

/-!
Verification development for the complete tree exploration engine for
multi-player bandits (`complete_tree_exploration_for_MP_bandits.py`).

The engine is embedded shallowly:

* probabilities are modelled in the exact rational domain `ℚ` (one of the
  three value domains the program supports: `Fraction`);
* the `M × K` counter matrices `S`, `Stilde`, `N`, `Ntilde` are lists of
  lists of naturals;
* the mutating Python methods become pure functions returning the updated
  state; the `yield`ed transition closures of `all_deltas` become explicit
  `State → State` functions;
* the hash-based deduplication of Python `dict`s keyed by `hash(state)` is
  modelled by an insertion-ordered association list keyed by the default
  (reduced, `FULLHASH = False`) hash key `(Stilde, N)`.
-/

namespace MPBandits

/-- `itertools.product(*lists)`: all ways to pick one element from each list,
first coordinate varying slowest (the Python iteration order). -/
def listProd {α : Type} : List (List α) → List (List α)
  | [] => [[]]
  | xs :: rest => xs.flatMap (fun x => (listProd rest).map (fun v => x :: v))

/-- `itertools.product([0, 1], repeat = n)` with `0 ↦ false`, `1 ↦ true`:
all binary reward realizations over `n` arms. -/
def boolVecs (n : ℕ) : List (List Bool) := listProd (List.replicate n [false, true])

/-- Apply `f` to the element at position `n` (no-op when out of range);
models an in-place update `l[n] = f(l[n])` of a numpy row. -/
def modifyAt {α : Type} (f : α → α) : ℕ → List α → List α
  | _, [] => []
  | 0, x :: xs => f x :: xs
  | n + 1, x :: xs => x :: modifyAt f n xs

/-- In-place update `m[j][k] = f(m[j][k])` of a 2D array. -/
def modify2 (f : ℕ → ℕ) (j k : ℕ) (m : List (List ℕ)) : List (List ℕ) :=
  modifyAt (modifyAt f k) j m

/-- Entry `m[j][k]` of a 2D array (0 outside the array). -/
def entry2 (m : List (List ℕ)) (j k : ℕ) : ℕ := (m.getD j []).getD k 0

/-- `np.sum(m)` over a 2D array. -/
def sum2 (m : List (List ℕ)) : ℕ := (m.map List.sum).sum

/-- `max(np.shape(m))` for a rectangular 2D array given as a list of rows. -/
def shapeK (m : List (List ℕ)) : ℕ := max m.length (m.headD []).length

/-- `min(np.shape(m))` for a rectangular 2D array given as a list of rows. -/
def shapeM (m : List (List ℕ)) : ℕ := min m.length (m.headD []).length

/-- The state of the system: per-player/per-arm counters plus metadata,
exactly the fields of the Python `State` (minus the `children`/`probas`
caches, which the tree type below carries, and minus the shared immutable
`mus`/`players`, which are passed as parameters). -/
structure State where
  S : List (List ℕ)
  Stilde : List (List ℕ)
  N : List (List ℕ)
  Ntilde : List (List ℕ)
  M : ℕ
  K : ℕ
  t : ℕ
  depth : ℤ
deriving DecidableEq, Repr

/-- `State.__init__`: `t` is recomputed as `np.sum(N)`, and `M`/`K` as the
min/max of the shape of `S`. -/
def mkState (S Stilde N Ntilde : List (List ℕ)) (depth : ℤ) : State :=
  { S := S, Stilde := Stilde, N := N, Ntilde := Ntilde,
    M := shapeM S, K := shapeK S, t := sum2 N, depth := depth }

/-- `State.copy`: a fresh state built by the constructor from the same
counters and depth (note: the constructor resets `t` to `np.sum(N)`). -/
def State.copy (s : State) : State := mkState s.S s.Stilde s.N s.Ntilde s.depth

/-- The reduced (`FULLHASH = False`, the default) hash key of a state:
only `Stilde` and `N` participate. -/
def stateKey (s : State) : List (List ℕ) × List (List ℕ) := (s.Stilde, s.N)

/-- A memoryless decision rule: `(player index, state) ↦ tie set of arms`. -/
def Policy : Type := ℕ → State → List ℕ

/-- `FixedArm`: fake player `j` that always targets arm `j`. -/
def FixedArm : Policy := fun j _ => [j]

/-- `UniformExploration`: fake player that always targets all arms. -/
def UniformExploration : Policy := fun _ s => List.range s.K

/-- `choices_from_indexes`: positions of the maximal index,
`np.where(indexes == np.max(indexes))[0]` (undefined on an empty array in
numpy; modelled as the empty list there). -/
def choices_from_indexes {α : Type} [LinearOrder α] : List α → List ℕ
  | [] => []
  | x :: xs =>
    let m := List.foldl max x xs
    (List.range (x :: xs).length).filter (fun i => (x :: xs).getD i x = m)

/-- `Selfish_0Greedy_Ubar`: index `(Ntilde[j]/N[j]) * (S[j]/N[j])` with the
entries at `N[j] < 1` overridden to `+∞`; values live in `WithTop ℚ`. -/
def Selfish_0Greedy_Ubar : Policy := fun j s =>
  choices_from_indexes ((List.range s.K).map (fun k =>
    if entry2 s.N j k < 1 then (⊤ : WithTop ℚ)
    else (((entry2 s.Ntilde j k : ℚ) / (entry2 s.N j k : ℚ) *
           ((entry2 s.S j k : ℚ) / (entry2 s.N j k : ℚ)) : ℚ) : WithTop ℚ)))

/-- `default_policy = Selfish_0Greedy_Ubar`. -/
def default_policy : Policy := Selfish_0Greedy_Ubar

/-- `all_decisions = [player(j, self) for j, player in enumerate(players)]`. -/
def allDecisions (players : List Policy) (s : State) : List (List ℕ) :=
  players.enum.map (fun jp => jp.2 jp.1 s)

/-- `number_of_decisions = prod(len(decision) for decision in all_decisions)`. -/
def numberOfDecisions (tieSets : List (List ℕ)) : ℕ :=
  (tieSets.map List.length).prod

/-- `prod(mu if b else (1 - mu) for b, mu in zip(coin_flips, mus))`. -/
def probaOfFlip (mus : List ℚ) (coin_flips : List Bool) : ℚ :=
  ((coin_flips.zip mus).map (fun bm => if bm.1 then bm.2 else 1 - bm.2)).prod

/-- `collisions = [counter.get(k, 0) >= 2 for k in range(K)]`. -/
def collisionsOf (K : ℕ) (decisions : List ℕ) : List Bool :=
  (List.range K).map (fun k => decide (2 ≤ decisions.count k))

/-- One iteration of the update loop of the transition `delta` for player `j`
choosing arm `Ij`: `S[j][Ij] += coin_flips[Ij]`, `N[j][Ij] += 1`, and when
`Ij` is collision-free also `Stilde[j][Ij] += coin_flips[Ij]`,
`Ntilde[j][Ij] += 1`. -/
def applyOne (coin_flips cols : List Bool) (j Ij : ℕ) (s : State) : State :=
  let inc : ℕ := if coin_flips.getD Ij false then 1 else 0
  let s1 := { s with S := modify2 (· + inc) j Ij s.S, N := modify2 (· + 1) j Ij s.N }
  if cols.getD Ij false then s1
  else { s1 with Stilde := modify2 (· + inc) j Ij s1.Stilde,
                 Ntilde := modify2 (· + 1) j Ij s1.Ntilde }

/-- The loop `for j, Ij in enumerate(decisions)` of the transition `delta`. -/
def applyLoop (coin_flips cols : List Bool) : List (ℕ × ℕ) → State → State
  | [], s => s
  | (j, Ij) :: rest, s => applyLoop coin_flips cols rest (applyOne coin_flips cols j Ij s)

/-- The transition closure `delta` yielded by `all_deltas`: `t += 1`,
`depth -= 1`, then the per-player counter updates with collision detection
(`K` is the arm count of the generating state, captured by the closure). -/
def applyDelta (K : ℕ) (coin_flips : List Bool) (decisions : List ℕ) (s : State) : State :=
  applyLoop coin_flips (collisionsOf K decisions) decisions.enum
    { s with t := s.t + 1, depth := s.depth - 1 }

/-- `State.all_deltas`: the generator of `(delta, proba)` pairs, one per
(joint decision vector, coin-flip realization) combination, in the Python
iteration order. -/
def all_deltas (players : List Policy) (mus : List ℚ) (s : State) :
    List ((State → State) × ℚ) :=
  let all_decisions := allDecisions players s
  let number_of_decisions := numberOfDecisions all_decisions
  (listProd all_decisions).flatMap (fun decisions =>
    (boolVecs s.K).map (fun coin_flips =>
      (applyDelta s.K coin_flips decisions,
       probaOfFlip mus coin_flips / (number_of_decisions : ℚ))))

/-- `uniq_probas[h] += proba` / first-seen child wins: add `(p, c)` into an
insertion-ordered association list merged by `stateKey`. -/
def mergeAdd : List (ℚ × State) → ℚ → State → List (ℚ × State)
  | [], p, c => [(p, c)]
  | (q, x) :: rest, p, c =>
    if stateKey x = stateKey c then (q + p, x) :: rest
    else (q, x) :: mergeAdd rest p c

/-- Merge a whole list of `(proba, state)` pairs, summing probabilities of
states with equal hash key, preserving first-seen order (Python `dict`). -/
def mergeAll (l : List (ℚ × State)) : List (ℚ × State) :=
  l.foldl (fun acc pc => mergeAdd acc pc.1 pc.2) []

/-- `State.compute_one_depth`: increment the parent's `depth`, apply every
transition of `all_deltas` to a fresh copy, and merge equal-hash children.
Returns the updated parent together with the `(probas, children)` pairs. -/
def compute_one_depth (players : List Policy) (mus : List ℚ) (s : State) :
    State × List (ℚ × State) :=
  let s1 := { s with depth := s.depth + 1 }
  let raw := all_deltas players mus s1
  let pairs := raw.map (fun dp => (dp.2, dp.1 s1.copy))
  (s1, mergeAll pairs)

/-- The exploration tree: a state together with its `(probas, children)`
lists (kept zipped, as they are always aligned and iterated together). -/
inductive Tree : Type where
  | node : State → List (ℚ × Tree) → Tree

/-- The state stored at the root of a tree. -/
def Tree.state : Tree → State
  | .node s _ => s

/-- The `(proba, child)` pairs at the root of a tree. -/
def Tree.kids : Tree → List (ℚ × Tree)
  | .node _ k => k

/-- `State.explore_from_node_to_depth`: a no-op at depth 0; otherwise expand
one level, set the node's `depth` to the requested depth, and (for depth
`> 1`) recurse into every child with depth decreased by one. -/
def explore (players : List Policy) (mus : List ℚ) : ℕ → State → Tree
  | 0, s => .node s []
  | d + 1, s =>
    let r := compute_one_depth players mus s
    .node { r.1 with depth := ((d : ℤ) + 1) }
      (r.2.map (fun pc => (pc.1, explore players mus d pc.2)))

mutual

/-- `State.get_all_leafs`: a node with `depth ≤ 1` returns its own
`(probas, children)` pairs; otherwise path probabilities are pushed down
recursively into each child's leaves. -/
def get_all_leafs : Tree → List (ℚ × State)
  | .node s kids =>
    if s.depth ≤ 1 then kids.map (fun pc => (pc.1, pc.2.state))
    else galKids kids

/-- The loop over `zip(self.probas, self.children)` of `get_all_leafs`. -/
def galKids : List (ℚ × Tree) → List (ℚ × State)
  | [] => []
  | (p, t) :: rest => ((get_all_leafs t).map (fun ql => (p * ql.1, ql.2))) ++ galKids rest

end

/-- `State.get_unique_leafs`: deduplicate the leaves by hash key, summing
their path probabilities. -/
def get_unique_leafs (t : Tree) : List (ℚ × State) := mergeAll (get_all_leafs t)

/-- `[tupleit1(a[j1]) == tupleit1(a[j2]) for a in A]` for the four counter
matrices: the two players' rows are pairwise identical. -/
def rowsAllEqual (s : State) (j1 j2 : ℕ) : Bool :=
  decide (s.S.getD j1 [] = s.S.getD j2 [] ∧ s.Stilde.getD j1 [] = s.Stilde.getD j2 [] ∧
          s.N.getD j1 [] = s.N.getD j2 [] ∧ s.Ntilde.getD j1 [] = s.Ntilde.getD j2 [])

/-- `State.is_absorbing`: false when `np.min(N) < 1`; otherwise true iff two
distinct players have all four rows identical and the shared `Stilde` row has
only pairwise distinct values (`len(set(bad_line)) == len(bad_line)`). -/
def is_absorbing (s : State) : Bool :=
  if (s.N.flatMap id).any (fun x => decide (x < 1)) then false
  else (List.range s.M).any (fun j1 =>
    (List.range' (j1 + 1) (s.M - (j1 + 1))).any (fun j2 =>
      rowsAllEqual s j1 j2 &&
      ((s.Stilde.getD j1 []).dedup.length == (s.Stilde.getD j1 []).length)))

/-- `np.zeros((M, K))`. -/
def zeros2 (M K : ℕ) : List (List ℕ) := List.replicate M (List.replicate K 0)

/-- The `M` used to build default players in `main`: from the shape of `S`
when `S` is given, else the argument `M`. -/
def derivedM (Sopt : Option (List (List ℕ))) (M0 : ℕ) : ℕ :=
  match Sopt with
  | some S => shapeM S
  | none => M0

/-- The effective players list of `main`: the given one, or `M` copies of
`default_policy`. -/
def effPlayers (playersOpt : Option (List Policy)) (Sopt : Option (List (List ℕ)))
    (M0 : ℕ) : List Policy :=
  playersOpt.getD (List.replicate (derivedM Sopt M0) default_policy)

/-- The message of the failed `assert 1 <= M <= K <= 10`. -/
def msgMK (M K : ℕ) : String :=
  "Error: only 1 <= M <= K <= 10 are supported... and M = " ++ toString M ++
    ", K = " ++ toString K ++ " here..."

/-- The message of the failed `assert 0 <= depth <= 8`. -/
def msgDepth (depth : ℤ) : String :=
  "Error: only 0 <= depth <= 8 is supported... and depth = " ++ toString depth ++ " here..."

/-- `main`: derive `M`/`K`, check the configuration guards, build the root
state (all-zero counters by default) and explore it, returning the explored
tree and its unique leaves.  The symbolic default for `mus` (sympy symbols)
is outside the rational value domain, so `mus` is a required argument here;
`K = len(mus)` exactly as in the source. -/
def main (depth : ℤ) (playersOpt : Option (List Policy)) (mus : List ℚ) (M0 : ℕ)
    (Sopt Stildeopt Nopt Ntildeopt : Option (List (List ℕ))) :
    Except String (Tree × List (ℚ × State)) :=
  let K := mus.length
  let players := effPlayers playersOpt Sopt M0
  let M := players.length
  if ¬ (1 ≤ M ∧ M ≤ K ∧ K ≤ 10) then .error (msgMK M K)
  else if ¬ (0 ≤ depth ∧ depth ≤ 8) then .error (msgDepth depth)
  else
    let S := Sopt.getD (zeros2 M K)
    let Stilde := Stildeopt.getD (zeros2 M K)
    let N := Nopt.getD (zeros2 M K)
    let Ntilde := Ntildeopt.getD (zeros2 M K)
    let root := mkState S Stilde N Ntilde 0
    let tree := explore players mus depth.toNat root
    .ok (tree, get_unique_leafs tree)

/-- Two states with the same matrix dimensions and the same `M`, `K`. -/
def SameShape (a b : State) : Prop :=
  a.S.length = b.S.length ∧ a.Stilde.length = b.Stilde.length ∧
  a.N.length = b.N.length ∧ a.Ntilde.length = b.Ntilde.length ∧
  (∀ i, (a.S.getD i []).length = (b.S.getD i []).length) ∧
  (∀ i, (a.Stilde.getD i []).length = (b.Stilde.getD i []).length) ∧
  (∀ i, (a.N.getD i []).length = (b.N.getD i []).length) ∧
  (∀ i, (a.Ntilde.getD i []).length = (b.Ntilde.getD i []).length) ∧
  a.M = b.M ∧ a.K = b.K
/-- The state's `K` (both the cached field and the one its matrix shape would
yield on copy) agrees with the number of arm means. -/
def Pmus (mus : List ℚ) (s : State) : Prop :=
  s.K = mus.length ∧ shapeK s.S = mus.length
/-- Total probability mass of the collected leaves of a tree. -/
def leafSum (t : Tree) : ℚ := ((get_all_leafs t).map Prod.fst).sum

/-- Well-formedness of a state: `M` players, `K` arms, matrices of shape
`M × K`, with `1 ≤ M ≤ K` (the supported configurations). -/
def WFState (Mv Kv : ℕ) (s : State) : Prop :=
  1 ≤ Mv ∧ Mv ≤ Kv ∧ s.M = Mv ∧ s.K = Kv ∧
  s.S.length = Mv ∧ s.Stilde.length = Mv ∧ s.N.length = Mv ∧ s.Ntilde.length = Mv ∧
  (∀ i, i < Mv → (s.S.getD i []).length = Kv) ∧
  (∀ i, i < Mv → (s.Stilde.getD i []).length = Kv) ∧
  (∀ i, i < Mv → (s.N.getD i []).length = Kv) ∧
  (∀ i, i < Mv → (s.Ntilde.getD i []).length = Kv)

/-- Reachability in the exploration: the root as constructed, and every state
obtained by applying one of the generated transition functions to a copy of a
reachable state (the transitions of `all_deltas` are exactly
`applyDelta s.K fs ds` for a joint decision vector `ds` and realization `fs`). -/
inductive Reachable (players : List Policy) (root : State) : State → Prop where
  | refl : Reachable players root root
  | step {s : State} {ds : List ℕ} {fs : List Bool} :
      Reachable players root s →
      ds ∈ listProd (allDecisions players s) →
      fs ∈ boolVecs s.K →
      Reachable players root (applyDelta s.K fs ds (State.copy s))

/-- The absorbing-state rule in the spec's words: (a) no player has zero
trials on any arm, (b) two distinct players have identical `S`, `Stilde`,
`N`, `Ntilde` rows, and (c) the shared `Stilde` row has pairwise distinct
values. -/
def AbsorbingSpec (s : State) : Prop :=
  (∀ row ∈ s.N, ∀ x ∈ row, 1 ≤ x) ∧
  ∃ j1 j2, j1 < s.M ∧ j2 < s.M ∧ j1 ≠ j2 ∧
    s.S.getD j1 [] = s.S.getD j2 [] ∧ s.Stilde.getD j1 [] = s.Stilde.getD j2 [] ∧
    s.N.getD j1 [] = s.N.getD j2 [] ∧ s.Ntilde.getD j1 [] = s.Ntilde.getD j2 [] ∧
    (s.Stilde.getD j1 []).Nodup

/-- Definition following the spec's words (§4.2, step 4): the probability of
a (decision vector, realization) pair is the product over arms of `mu_k` for
a success and `1 - mu_k` for a failure, divided by the number of joint
decision vectors considered. -/
def specProbability (mus : List ℚ) (tieSets : List (List ℕ)) (fs : List Bool) : ℚ :=
  (((List.range mus.length).map
      (fun k => if fs.getD k false then mus.getD k 0 else 1 - mus.getD k 0)).prod) /
    ((listProd tieSets).length : ℚ)

/-! ### Basic lemmas about the list infrastructure -/
/-! ### Basic lemmas about the list infrastructure -/
/-! ### Basic lemmas about the list infrastructure -/

theorem sum_map_const_nat {α : Type} (l : List α) (c : ℕ) :
    (l.map (fun _ => c)).sum = l.length * c := by
  induction l with
  | nil => simp
  | cons x xs ih => simp [ih, Nat.succ_mul]; ring

theorem length_listProd {α : Type} (L : List (List α)) :
    (listProd L).length = (L.map List.length).prod := by
  induction L with
  | nil => rfl
  | cons xs rest ih =>
    simp only [listProd, List.length_flatMap, List.map_map]
    have h1 : ∀ a ∈ xs, (List.length ∘ fun x => (listProd rest).map (x :: ·)) a =
        (fun _ => (listProd rest).length) a := by
      intro a _; simp
    rw [List.map_congr_left h1, sum_map_const_nat, ih, List.map_cons, List.prod_cons]

theorem mem_listProd {α : Type} {L : List (List α)} {v : List α} :
    v ∈ listProd L ↔ List.Forall₂ (fun a l => a ∈ l) v L := by
  induction L generalizing v with
  | nil =>
    simp only [listProd, List.mem_singleton]
    constructor
    · rintro rfl; exact List.Forall₂.nil
    · intro h; cases h; rfl
  | cons xs rest ih =>
    simp only [listProd, List.mem_flatMap, List.mem_map]
    constructor
    · rintro ⟨x, hx, v', hv', rfl⟩
      exact List.Forall₂.cons hx (ih.1 hv')
    · intro h
      cases h with
      | cons ha hrest => exact ⟨_, ha, _, ih.2 hrest, rfl⟩

theorem length_of_mem_listProd {α : Type} {L : List (List α)} {v : List α}
    (h : v ∈ listProd L) : v.length = L.length :=
  (mem_listProd.1 h).length_eq

theorem length_boolVecs (n : ℕ) : (boolVecs n).length = 2 ^ n := by
  simp [boolVecs, length_listProd, List.map_replicate, List.prod_replicate]

theorem length_of_mem_boolVecs {n : ℕ} {v : List Bool} (h : v ∈ boolVecs n) :
    v.length = n := by
  simpa using length_of_mem_listProd h

theorem modifyAt_nil {α : Type} (f : α → α) (n : ℕ) : modifyAt f n ([] : List α) = [] := by
  cases n <;> rfl

theorem modifyAt_length {α : Type} (f : α → α) (n : ℕ) (l : List α) :
    (modifyAt f n l).length = l.length := by
  induction l generalizing n with
  | nil => rw [modifyAt_nil]
  | cons x xs ih => cases n <;> simp [modifyAt, ih]

theorem modifyAt_getD_self {α : Type} (f : α → α) {n : ℕ} {l : List α} (h : n < l.length)
    (d : α) : (modifyAt f n l).getD n d = f (l.getD n d) := by
  induction l generalizing n with
  | nil => simp at h
  | cons x xs ih =>
    cases n with
    | zero => rfl
    | succ n => exact ih (Nat.lt_of_succ_lt_succ h)

theorem modifyAt_getD_ne {α : Type} (f : α → α) {n i : ℕ} (l : List α) (h : i ≠ n)
    (d : α) : (modifyAt f n l).getD i d = l.getD i d := by
  induction l generalizing n i with
  | nil => rw [modifyAt_nil]
  | cons x xs ih =>
    cases n with
    | zero =>
      cases i with
      | zero => exact absurd rfl h
      | succ i => rfl
    | succ n =>
      cases i with
      | zero => rfl
      | succ i => exact ih (fun hh => h (by simp [hh]))

theorem modifyAt_sum_add (c : ℕ) {n : ℕ} {l : List ℕ} (h : n < l.length) :
    (modifyAt (· + c) n l).sum = l.sum + c := by
  induction l generalizing n with
  | nil => simp at h
  | cons x xs ih =>
    cases n with
    | zero => simp [modifyAt]; ring
    | succ n =>
      simp only [modifyAt, List.sum_cons, ih (Nat.lt_of_succ_lt_succ h)]
      ring

theorem mem_modifyAt {α : Type} {g : α → α} {j : ℕ} {m : List α} {r : α}
    (h : r ∈ modifyAt g j m) : r ∈ m ∨ ∃ x ∈ m, r = g x := by
  induction m generalizing j with
  | nil => rw [modifyAt_nil] at h; simp at h
  | cons y ys ih =>
    cases j with
    | zero =>
      simp only [modifyAt, List.mem_cons] at h
      rcases h with h | h
      · exact Or.inr ⟨y, List.mem_cons_self _ _, h⟩
      · exact Or.inl (List.mem_cons_of_mem _ h)
    | succ j =>
      simp only [modifyAt, List.mem_cons] at h
      rcases h with h | h
      · exact Or.inl (h ▸ List.mem_cons_self _ _)
      · rcases ih h with h2 | ⟨x, hx, hr⟩
        · exact Or.inl (List.mem_cons_of_mem _ h2)
        · exact Or.inr ⟨x, List.mem_cons_of_mem _ hx, hr⟩

theorem modify2_getD_row (f : ℕ → ℕ) (j k : ℕ) (m : List (List ℕ)) :
    (modify2 f j k m).getD j [] = modifyAt f k (m.getD j []) := by
  by_cases h : j < m.length
  · exact modifyAt_getD_self _ h []
  · push_neg at h
    have h1 : (modify2 f j k m).length ≤ j := by
      simpa [modify2, modifyAt_length] using h
    rw [List.getD_eq_default _ _ h1, List.getD_eq_default _ _ h]
    exact (modifyAt_nil f k).symm

theorem modify2_getD_row_ne (f : ℕ → ℕ) {j j' : ℕ} (k : ℕ) (m : List (List ℕ))
    (h : j' ≠ j) : (modify2 f j k m).getD j' [] = m.getD j' [] :=
  modifyAt_getD_ne _ _ h []

theorem sum2_modify2_add (c : ℕ) {j k : ℕ} {m : List (List ℕ)}
    (hj : j < m.length) (hk : k < (m.getD j []).length) :
    sum2 (modify2 (· + c) j k m) = sum2 m + c := by
  induction m generalizing j with
  | nil => simp at hj
  | cons r rows ih =>
    cases j with
    | zero =>
      simp only [modify2, modifyAt, sum2, List.map_cons, List.sum_cons]
      have : (modifyAt (· + c) k r).sum = r.sum + c := modifyAt_sum_add c hk
      simp only [this]
      ring
    | succ j =>
      have h2 := ih (Nat.lt_of_succ_lt_succ hj) (by simpa using hk)
      simp only [modify2, modifyAt, sum2, List.map_cons, List.sum_cons]
      simp only [modify2, sum2] at h2
      omega

theorem sum_flatMapQ {α : Type} (l : List α) (f : α → List ℚ) :
    (l.flatMap f).sum = (l.map (fun x => (f x).sum)).sum := by
  induction l with
  | nil => rfl
  | cons x xs ih => simp [List.flatMap_cons, ih]

theorem snd_mem_of_mem_enum {α : Type} {x : ℕ × α} {l : List α}
    (h : x ∈ l.enum) : x.2 ∈ l := by
  obtain ⟨i, a⟩ := x
  have h2 := List.mem_enumFrom h
  simp only [Nat.sub_zero, Nat.zero_add] at h2
  rw [show (i, a).2 = a from rfl, h2.2.2]
  exact l.getElem_mem h2.2.1

/-! ### Probability conservation for the transition generator -/

theorem probaOfFlip_nil (mus : List ℚ) : probaOfFlip mus [] = 1 := rfl

theorem probaOfFlip_cons (mu : ℚ) (mus : List ℚ) (b : Bool) (v : List Bool) :
    probaOfFlip (mu :: mus) (b :: v) = (if b then mu else 1 - mu) * probaOfFlip mus v := by
  simp [probaOfFlip, List.zip_cons_cons]

theorem boolVecs_succ (n : ℕ) :
    boolVecs (n + 1) =
      ((boolVecs n).map (false :: ·)) ++ ((boolVecs n).map (true :: ·)) := by
  simp [boolVecs, listProd, List.replicate_succ, List.flatMap_cons]

theorem sum_probaOfFlip (mus : List ℚ) :
    ((boolVecs mus.length).map (probaOfFlip mus)).sum = 1 := by
  induction mus with
  | nil => simp [boolVecs, listProd, probaOfFlip]
  | cons mu rest ih =>
    rw [List.length_cons, boolVecs_succ, List.map_append, List.sum_append,
      List.map_map, List.map_map]
    have hf : ∀ v ∈ boolVecs rest.length,
        (probaOfFlip (mu :: rest) ∘ (false :: ·)) v = (1 - mu) * probaOfFlip rest v := by
      intro v _; simp [Function.comp, probaOfFlip_cons]
    have ht : ∀ v ∈ boolVecs rest.length,
        (probaOfFlip (mu :: rest) ∘ (true :: ·)) v = mu * probaOfFlip rest v := by
      intro v _; simp [Function.comp, probaOfFlip_cons]
    rw [List.map_congr_left hf, List.map_congr_left ht,
      List.sum_map_mul_left, List.sum_map_mul_left, ih]
    ring

theorem numberOfDecisions_pos {tieSets : List (List ℕ)}
    (hne : ∀ d ∈ tieSets, d ≠ []) : 1 ≤ numberOfDecisions tieSets := by
  induction tieSets with
  | nil => simp [numberOfDecisions]
  | cons d rest ih =>
    have hd : 1 ≤ d.length :=
      List.length_pos.2 (hne d (List.mem_cons_self _ _))
    have hr : 1 ≤ numberOfDecisions rest :=
      ih (fun x hx => hne x (List.mem_cons_of_mem _ hx))
    simpa [numberOfDecisions] using Nat.mul_le_mul hd hr

theorem all_deltas_sum (players : List Policy) (mus : List ℚ) (s : State)
    (hmus : mus.length = s.K)
    (hne : ∀ d ∈ allDecisions players s, d ≠ []) :
    ((all_deltas players mus s).map Prod.snd).sum = 1 := by
  have hpos : 1 ≤ numberOfDecisions (allDecisions players s) := numberOfDecisions_pos hne
  have hQ : ((numberOfDecisions (allDecisions players s) : ℚ)) ≠ 0 :=
    Nat.cast_ne_zero.2 (by omega)
  rw [all_deltas, List.map_flatMap, sum_flatMapQ]
  have hinner : ∀ ds ∈ listProd (allDecisions players s),
      (fun ds => (List.map Prod.snd
        ((boolVecs s.K).map (fun coin_flips =>
          (applyDelta s.K coin_flips ds,
           probaOfFlip mus coin_flips /
             (numberOfDecisions (allDecisions players s) : ℚ))))).sum) ds
        = (fun _ => 1 / (numberOfDecisions (allDecisions players s) : ℚ)) ds := by
    intro ds _
    simp only [List.map_map]
    have hcomp : ∀ v ∈ boolVecs s.K,
        (Prod.snd ∘ fun coin_flips =>
          (applyDelta s.K coin_flips ds,
           probaOfFlip mus coin_flips /
             (numberOfDecisions (allDecisions players s) : ℚ))) v =
        (1 / (numberOfDecisions (allDecisions players s) : ℚ)) * probaOfFlip mus v := by
      intro v _
      simp only [Function.comp]
      rw [div_eq_mul_inv, one_div, mul_comm]
    rw [List.map_congr_left hcomp, List.sum_map_mul_left, ← hmus, sum_probaOfFlip, mul_one]
  rw [List.map_congr_left hinner]
  have hconst : (List.map (fun _ => 1 / (numberOfDecisions (allDecisions players s) : ℚ))
      (listProd (allDecisions players s))).sum =
      ((listProd (allDecisions players s)).length : ℚ) *
        (1 / (numberOfDecisions (allDecisions players s) : ℚ)) := by
    induction listProd (allDecisions players s) with
    | nil => simp
    | cons x xs ihl => simp [ihl]; ring
  rw [hconst, length_listProd]
  rw [show ((allDecisions players s).map List.length).prod =
    numberOfDecisions (allDecisions players s) from rfl]
  field_simp

theorem mergeAdd_sum (l : List (ℚ × State)) (p : ℚ) (c : State) :
    ((mergeAdd l p c).map Prod.fst).sum = (l.map Prod.fst).sum + p := by
  induction l with
  | nil => simp [mergeAdd]
  | cons qx rest ih =>
    obtain ⟨q, x⟩ := qx
    by_cases h : stateKey x = stateKey c
    · simp [mergeAdd, h]; ring
    · simp [mergeAdd, h, ih]; ring

theorem mergeAll_sum_aux (l : List (ℚ × State)) (acc : List (ℚ × State)) :
    ((l.foldl (fun a pc => mergeAdd a pc.1 pc.2) acc).map Prod.fst).sum =
      (acc.map Prod.fst).sum + (l.map Prod.fst).sum := by
  induction l generalizing acc with
  | nil => simp
  | cons pc rest ih =>
    simp only [List.foldl_cons, ih, mergeAdd_sum, List.map_cons, List.sum_cons]
    ring

theorem mergeAll_sum (l : List (ℚ × State)) :
    ((mergeAll l).map Prod.fst).sum = (l.map Prod.fst).sum := by
  simpa [mergeAll] using mergeAll_sum_aux l []

theorem mem_mergeAdd {l : List (ℚ × State)} {p q : ℚ} {c x : State}
    (h : (q, x) ∈ mergeAdd l p c) : (∃ r, (r, x) ∈ l) ∨ x = c := by
  induction l generalizing p with
  | nil =>
    simp only [mergeAdd, List.mem_singleton, Prod.mk.injEq] at h
    exact Or.inr h.2
  | cons ry rest ih =>
    obtain ⟨r, y⟩ := ry
    by_cases hk : stateKey y = stateKey c
    · simp only [mergeAdd, hk, if_pos, List.mem_cons, Prod.mk.injEq] at h
      rcases h with ⟨_, rfl⟩ | h
      · exact Or.inl ⟨r, List.mem_cons_self _ _⟩
      · exact Or.inl ⟨q, List.mem_cons_of_mem _ h⟩
    · simp only [mergeAdd, hk, if_neg, not_false_iff, List.mem_cons, Prod.mk.injEq] at h
      rcases h with ⟨rfl, rfl⟩ | h
      · exact Or.inl ⟨q, List.mem_cons_self _ _⟩
      · rcases ih h with ⟨r2, hr2⟩ | rfl
        · exact Or.inl ⟨r2, List.mem_cons_of_mem _ hr2⟩
        · exact Or.inr rfl

theorem mem_mergeAll_aux {l acc : List (ℚ × State)} {q : ℚ} {x : State}
    (h : (q, x) ∈ l.foldl (fun a pc => mergeAdd a pc.1 pc.2) acc) :
    (∃ r, (r, x) ∈ acc) ∨ ∃ r, (r, x) ∈ l := by
  induction l generalizing acc with
  | nil => exact Or.inl ⟨q, h⟩
  | cons pc rest ih =>
    rcases ih h with ⟨r, hr⟩ | ⟨r, hr⟩
    · rcases mem_mergeAdd hr with ⟨r2, hr2⟩ | rfl
      · exact Or.inl ⟨r2, hr2⟩
      · exact Or.inr ⟨pc.1, by simpa using Or.inl rfl⟩
    · exact Or.inr ⟨r, List.mem_cons_of_mem _ hr⟩

theorem mem_mergeAll {l : List (ℚ × State)} {q : ℚ} {x : State}
    (h : (q, x) ∈ mergeAll l) : ∃ r, (r, x) ∈ l := by
  rcases mem_mergeAll_aux (show (q, x) ∈ l.foldl (fun a pc => mergeAdd a pc.1 pc.2) [] from h) with ⟨r, hr⟩ | h2
  · simp at hr
  · exact h2

theorem compute_probas_sum (players : List Policy) (mus : List ℚ) (s : State)
    (hmus : mus.length = s.K)
    (hne : ∀ d ∈ allDecisions players { s with depth := s.depth + 1 }, d ≠ []) :
    (((compute_one_depth players mus s).2).map Prod.fst).sum = 1 := by
  rw [compute_one_depth]
  simp only []
  rw [mergeAll_sum, List.map_map]
  have hc : (Prod.fst ∘ fun dp : (State → State) × ℚ =>
      (dp.2, dp.1 (State.copy { s with depth := s.depth + 1 }))) = Prod.snd := rfl
  rw [hc]
  exact all_deltas_sum players mus _ hmus hne

/-! ### Shape preservation along transitions -/

theorem headD_eq_getD_zero {α : Type} (l : List (List α)) : l.headD [] = l.getD 0 [] := by
  cases l <;> rfl

theorem modify2_row_length (f : ℕ → ℕ) (j k : ℕ) (m : List (List ℕ)) (i : ℕ) :
    ((modify2 f j k m).getD i []).length = (m.getD i []).length := by
  by_cases h : i = j
  · subst h; rw [modify2_getD_row, modifyAt_length]
  · rw [modify2_getD_row_ne _ _ _ h]


theorem sameShape_refl (a : State) : SameShape a a := by
  refine ⟨rfl, rfl, rfl, rfl, fun _ => rfl, fun _ => rfl, fun _ => rfl, fun _ => rfl, rfl, rfl⟩

theorem sameShape_trans {a b c : State} (h1 : SameShape a b) (h2 : SameShape b c) :
    SameShape a c := by
  obtain ⟨a1, a2, a3, a4, a5, a6, a7, a8, a9, a10⟩ := h1
  obtain ⟨b1, b2, b3, b4, b5, b6, b7, b8, b9, b10⟩ := h2
  exact ⟨a1.trans b1, a2.trans b2, a3.trans b3, a4.trans b4,
    fun i => (a5 i).trans (b5 i), fun i => (a6 i).trans (b6 i),
    fun i => (a7 i).trans (b7 i), fun i => (a8 i).trans (b8 i),
    a9.trans b9, a10.trans b10⟩

theorem applyOne_sameShape (fs cols : List Bool) (j Ij : ℕ) (s : State) :
    SameShape (applyOne fs cols j Ij s) s := by
  simp only [applyOne]
  split
  · exact ⟨modifyAt_length _ _ _, rfl, modifyAt_length _ _ _, rfl,
      fun i => modify2_row_length _ _ _ _ i, fun i => rfl,
      fun i => modify2_row_length _ _ _ _ i, fun i => rfl, rfl, rfl⟩
  · exact ⟨modifyAt_length _ _ _, modifyAt_length _ _ _,
      modifyAt_length _ _ _, modifyAt_length _ _ _,
      fun i => modify2_row_length _ _ _ _ i, fun i => modify2_row_length _ _ _ _ i,
      fun i => modify2_row_length _ _ _ _ i, fun i => modify2_row_length _ _ _ _ i, rfl, rfl⟩

theorem applyOne_t (fs cols : List Bool) (j Ij : ℕ) (s : State) :
    (applyOne fs cols j Ij s).t = s.t := by
  simp only [applyOne]
  split <;> rfl

theorem applyOne_depth (fs cols : List Bool) (j Ij : ℕ) (s : State) :
    (applyOne fs cols j Ij s).depth = s.depth := by
  simp only [applyOne]
  split <;> rfl

theorem applyLoop_sameShape (fs cols : List Bool) (ps : List (ℕ × ℕ)) (s : State) :
    SameShape (applyLoop fs cols ps s) s := by
  induction ps generalizing s with
  | nil => exact sameShape_refl s
  | cons jI rest ih =>
    obtain ⟨j, Ij⟩ := jI
    exact sameShape_trans (ih _) (applyOne_sameShape fs cols j Ij s)

theorem applyLoop_t (fs cols : List Bool) (ps : List (ℕ × ℕ)) (s : State) :
    (applyLoop fs cols ps s).t = s.t := by
  induction ps generalizing s with
  | nil => rfl
  | cons jI rest ih =>
    obtain ⟨j, Ij⟩ := jI
    rw [applyLoop, ih, applyOne_t]

theorem applyLoop_depth (fs cols : List Bool) (ps : List (ℕ × ℕ)) (s : State) :
    (applyLoop fs cols ps s).depth = s.depth := by
  induction ps generalizing s with
  | nil => rfl
  | cons jI rest ih =>
    obtain ⟨j, Ij⟩ := jI
    rw [applyLoop, ih, applyOne_depth]

theorem applyDelta_sameShape (K : ℕ) (fs : List Bool) (ds : List ℕ) (s : State) :
    SameShape (applyDelta K fs ds s) s :=
  applyLoop_sameShape _ _ _ _

theorem applyDelta_t (K : ℕ) (fs : List Bool) (ds : List ℕ) (s : State) :
    (applyDelta K fs ds s).t = s.t + 1 := by
  rw [applyDelta, applyLoop_t]

theorem applyDelta_depth (K : ℕ) (fs : List Bool) (ds : List ℕ) (s : State) :
    (applyDelta K fs ds s).depth = s.depth - 1 := by
  rw [applyDelta, applyLoop_depth]

theorem shapeK_of_sameShape {a b : State} (h : SameShape a b) : shapeK a.S = shapeK b.S := by
  obtain ⟨h1, -, -, -, h5, -⟩ := h
  rw [shapeK, shapeK, h1, headD_eq_getD_zero, headD_eq_getD_zero, h5 0]

/-! ### The shape invariant needed for leaf conservation -/


theorem all_deltas_mem_structure {players : List Policy} {mus : List ℚ} {s : State}
    {dp : (State → State) × ℚ} (h : dp ∈ all_deltas players mus s) :
    ∃ ds ∈ listProd (allDecisions players s), ∃ fs ∈ boolVecs s.K,
      dp = (applyDelta s.K fs ds,
        probaOfFlip mus fs / (numberOfDecisions (allDecisions players s) : ℚ)) := by
  rw [all_deltas] at h
  simp only [List.mem_flatMap, List.mem_map] at h
  obtain ⟨ds, hds, fs, hfs, rfl⟩ := h
  exact ⟨ds, hds, fs, hfs, rfl⟩

theorem pmus_child {players : List Policy} {mus : List ℚ} {s : State} {p : ℚ} {c : State}
    (hs : Pmus mus s) (hmem : (p, c) ∈ (compute_one_depth players mus s).2) :
    Pmus mus c := by
  rw [compute_one_depth] at hmem
  simp only at hmem
  obtain ⟨r, hr⟩ := mem_mergeAll hmem
  simp only [List.mem_map] at hr
  obtain ⟨dp, hdp, heq⟩ := hr
  have hc : c = dp.1 (State.copy { s with depth := s.depth + 1 }) := by
    have := congrArg Prod.snd heq
    simpa using this.symm
  obtain ⟨ds, -, fs, -, rfl⟩ := all_deltas_mem_structure hdp
  subst hc
  set s1 : State := { s with depth := s.depth + 1 } with hs1
  have hcopyK : (State.copy s1).K = shapeK s.S := rfl
  have hcopyS : (State.copy s1).S = s.S := rfl
  have hshape := applyDelta_sameShape s1.K fs ds (State.copy s1)
  constructor
  · have hK : (applyDelta s1.K fs ds (State.copy s1)).K = (State.copy s1).K :=
      hshape.2.2.2.2.2.2.2.2.2
    rw [hK, hcopyK, hs.2]
  · have := shapeK_of_sameShape hshape
    rw [this, hcopyS, hs.2]

/-! ### Leaf-sum conservation for the explored tree -/


theorem galKids_sum (kids : List (ℚ × Tree)) :
    ((galKids kids).map Prod.fst).sum = (kids.map (fun pc => pc.1 * leafSum pc.2)).sum := by
  induction kids with
  | nil => rfl
  | cons pt rest ih =>
    obtain ⟨p, t⟩ := pt
    rw [galKids, List.map_append, List.sum_append, ih, List.map_map]
    simp only [List.map_cons, List.sum_cons]
    have : (Prod.fst ∘ fun ql : ℚ × State => (p * ql.1, ql.2)) = fun ql => p * ql.1 := rfl
    rw [this, List.sum_map_mul_left, leafSum]

theorem allDecisions_ne_of_policies {players : List Policy}
    (hne : ∀ p ∈ players, ∀ (j : ℕ) (u : State), p j u ≠ []) (s : State) :
    ∀ d ∈ allDecisions players s, d ≠ [] := by
  intro d hd
  rw [allDecisions] at hd
  simp only [List.mem_map] at hd
  obtain ⟨jp, hjp, rfl⟩ := hd
  exact hne jp.2 (snd_mem_of_mem_enum hjp) jp.1 s

theorem explore_leafSum (players : List Policy) (mus : List ℚ)
    (hne : ∀ p ∈ players, ∀ (j : ℕ) (u : State), p j u ≠ []) :
    ∀ (d : ℕ) (s : State), 1 ≤ d → Pmus mus s →
      leafSum (explore players mus d s) = 1 := by
  intro d
  induction d with
  | zero => intro s h; omega
  | succ d ih =>
    intro s _ hp
    rw [explore]
    cases d with
    | zero =>
      rw [leafSum, get_all_leafs]
      simp only [show ((0 : ℤ) + 1 : ℤ) ≤ 1 from le_refl 1, if_pos, List.map_map, Nat.cast_zero]
      have : (Prod.fst ∘ fun pc : ℚ × State => (pc.1, (explore players mus 0 pc.2).state)) =
          Prod.fst := rfl
      erw [this]
      exact compute_probas_sum players mus s hp.1.symm
        (allDecisions_ne_of_policies hne _)
    | succ e =>
      rw [leafSum, get_all_leafs]
      have hgt : ¬ (({ (compute_one_depth players mus s).1 with
          depth := ((e + 1 : ℕ) : ℤ) + 1 } : State).depth ≤ 1) := by
        simp only []
        push_cast
        omega
      rw [if_neg hgt, galKids_sum, List.map_map]
      have hcong : ∀ pc ∈ (compute_one_depth players mus s).2,
          ((fun pc : ℚ × Tree => pc.1 * leafSum pc.2) ∘
            fun pc : ℚ × State => (pc.1, explore players mus (e + 1) pc.2)) pc =
          Prod.fst pc := by
        intro pc hpc
        have hchild : Pmus mus pc.2 := pmus_child hp (by simpa using hpc)
        simp only [Function.comp]
        rw [ih pc.2 (Nat.le_add_left 1 e) hchild, mul_one]
      rw [List.map_congr_left hcong]
      exact compute_probas_sum players mus s hp.1.symm
        (allDecisions_ne_of_policies hne _)

/-! ### Entry-level characterization of one transition -/

theorem applyOne_S_row (fs cols : List Bool) (j Ij : ℕ) (s : State) :
    (applyOne fs cols j Ij s).S.getD j [] =
      modifyAt (· + (if fs.getD Ij false then 1 else 0)) Ij (s.S.getD j []) := by
  simp only [applyOne]
  split <;> exact modify2_getD_row _ _ _ _

theorem applyOne_N_row (fs cols : List Bool) (j Ij : ℕ) (s : State) :
    (applyOne fs cols j Ij s).N.getD j [] = modifyAt (· + 1) Ij (s.N.getD j []) := by
  simp only [applyOne]
  split <;> exact modify2_getD_row _ _ _ _

theorem applyOne_Stilde_col (fs cols : List Bool) (j Ij : ℕ) (s : State)
    (h : cols.getD Ij false = true) : (applyOne fs cols j Ij s).Stilde = s.Stilde := by
  simp only [applyOne]
  rw [if_pos h]

theorem applyOne_Ntilde_col (fs cols : List Bool) (j Ij : ℕ) (s : State)
    (h : cols.getD Ij false = true) : (applyOne fs cols j Ij s).Ntilde = s.Ntilde := by
  simp only [applyOne]
  rw [if_pos h]

theorem applyOne_Stilde_nocol (fs cols : List Bool) (j Ij : ℕ) (s : State)
    (h : cols.getD Ij false = false) :
    (applyOne fs cols j Ij s).Stilde =
      modify2 (· + (if fs.getD Ij false then 1 else 0)) j Ij s.Stilde := by
  simp only [applyOne]
  rw [if_neg (by rw [h]; exact Bool.false_ne_true)]

theorem applyOne_Ntilde_nocol (fs cols : List Bool) (j Ij : ℕ) (s : State)
    (h : cols.getD Ij false = false) :
    (applyOne fs cols j Ij s).Ntilde = modify2 (· + 1) j Ij s.Ntilde := by
  simp only [applyOne]
  rw [if_neg (by rw [h]; exact Bool.false_ne_true)]

theorem applyOne_row_other (fs cols : List Bool) (j Ij : ℕ) (s : State) {i : ℕ}
    (h : i ≠ j) :
    (applyOne fs cols j Ij s).S.getD i [] = s.S.getD i [] ∧
    (applyOne fs cols j Ij s).Stilde.getD i [] = s.Stilde.getD i [] ∧
    (applyOne fs cols j Ij s).N.getD i [] = s.N.getD i [] ∧
    (applyOne fs cols j Ij s).Ntilde.getD i [] = s.Ntilde.getD i [] := by
  simp only [applyOne]
  split
  · exact ⟨modify2_getD_row_ne _ _ _ h, rfl, modify2_getD_row_ne _ _ _ h, rfl⟩
  · exact ⟨modify2_getD_row_ne _ _ _ h, modify2_getD_row_ne _ _ _ h,
      modify2_getD_row_ne _ _ _ h, modify2_getD_row_ne _ _ _ h⟩

theorem applyLoop_row_untouched (fs cols : List Bool) (ps : List (ℕ × ℕ)) (s : State)
    {j : ℕ} (h : j ∉ ps.map Prod.fst) :
    (applyLoop fs cols ps s).S.getD j [] = s.S.getD j [] ∧
    (applyLoop fs cols ps s).Stilde.getD j [] = s.Stilde.getD j [] ∧
    (applyLoop fs cols ps s).N.getD j [] = s.N.getD j [] ∧
    (applyLoop fs cols ps s).Ntilde.getD j [] = s.Ntilde.getD j [] := by
  induction ps generalizing s with
  | nil => exact ⟨rfl, rfl, rfl, rfl⟩
  | cons jI rest ih =>
    obtain ⟨j0, I0⟩ := jI
    simp only [List.map_cons, List.mem_cons] at h
    push_neg at h
    obtain ⟨hne, hrest⟩ := h
    have h1 := ih (applyOne fs cols j0 I0 s) hrest
    have h2 := applyOne_row_other fs cols j0 I0 s hne
    rw [applyLoop]
    exact ⟨h1.1.trans h2.1, h1.2.1.trans h2.2.1, h1.2.2.1.trans h2.2.2.1,
      h1.2.2.2.trans h2.2.2.2⟩

theorem applyLoop_row (fs cols : List Bool) {ps : List (ℕ × ℕ)} {j Ij : ℕ}
    (hmem : (j, Ij) ∈ ps) (hnodup : (ps.map Prod.fst).Nodup) (s : State) :
    (applyLoop fs cols ps s).S.getD j [] =
      modifyAt (· + (if fs.getD Ij false then 1 else 0)) Ij (s.S.getD j []) ∧
    (applyLoop fs cols ps s).N.getD j [] = modifyAt (· + 1) Ij (s.N.getD j []) ∧
    (applyLoop fs cols ps s).Stilde.getD j [] =
      (if cols.getD Ij false then s.Stilde.getD j []
       else modifyAt (· + (if fs.getD Ij false then 1 else 0)) Ij (s.Stilde.getD j [])) ∧
    (applyLoop fs cols ps s).Ntilde.getD j [] =
      (if cols.getD Ij false then s.Ntilde.getD j []
       else modifyAt (· + 1) Ij (s.Ntilde.getD j [])) := by
  induction ps generalizing s with
  | nil => simp at hmem
  | cons jI rest ih =>
    obtain ⟨j0, I0⟩ := jI
    rw [List.map_cons, List.nodup_cons] at hnodup
    obtain ⟨hnotin, hnd⟩ := hnodup
    rcases List.mem_cons.1 hmem with heq | hmem2
    · obtain ⟨rfl, rfl⟩ := Prod.mk.injEq .. ▸ heq
      have huntouched := applyLoop_row_untouched fs cols rest (applyOne fs cols j Ij s) hnotin
      rw [applyLoop]
      refine ⟨huntouched.1.trans (applyOne_S_row fs cols j Ij s),
        huntouched.2.2.1.trans (applyOne_N_row fs cols j Ij s), ?_, ?_⟩
      · by_cases hcol : cols.getD Ij false = true
        · rw [if_pos hcol, huntouched.2.1, applyOne_Stilde_col fs cols j Ij s hcol]
        · have hcolf : cols.getD Ij false = false := by simpa using hcol
          rw [if_neg hcol, huntouched.2.1,
            applyOne_Stilde_nocol fs cols j Ij s hcolf, modify2_getD_row]
      · by_cases hcol : cols.getD Ij false = true
        · rw [if_pos hcol, huntouched.2.2.2, applyOne_Ntilde_col fs cols j Ij s hcol]
        · have hcolf : cols.getD Ij false = false := by simpa using hcol
          rw [if_neg hcol, huntouched.2.2.2,
            applyOne_Ntilde_nocol fs cols j Ij s hcolf, modify2_getD_row]
    · have hji : j ≠ j0 := by
        intro hj
        exact hnotin (hj ▸ List.mem_map.2 ⟨(j, Ij), hmem2, rfl⟩)
      have hother := applyOne_row_other fs cols j0 I0 s hji
      have hrec := ih hmem2 hnd (applyOne fs cols j0 I0 s)
      rw [applyLoop]
      refine ⟨?_, ?_, ?_, ?_⟩
      · rw [hrec.1, hother.1]
      · rw [hrec.2.1, hother.2.2.1]
      · rw [hrec.2.2.1, hother.2.1]
      · rw [hrec.2.2.2, hother.2.2.2]

theorem mem_enum_getD {ds : List ℕ} {j : ℕ} (hj : j < ds.length) :
    (j, ds.getD j 0) ∈ ds.enum := by
  have hlen : j < ds.enum.length := by simpa [List.enum_length] using hj
  have := List.getElem_enum ds j hlen
  rw [List.getD_eq_getElem _ _ hj]
  exact this ▸ ds.enum.getElem_mem hlen

theorem enum_fst_nodup (ds : List ℕ) : (ds.enum.map Prod.fst).Nodup := by
  rw [List.enum_map_fst]
  exact List.nodup_range _

theorem collisionsOf_getD {K Ij : ℕ} (ds : List ℕ) (h : Ij < K) :
    (collisionsOf K ds).getD Ij false = decide (2 ≤ ds.count Ij) := by
  have hlen : Ij < ((List.range K).map fun k => decide (2 ≤ ds.count k)).length := by
    simpa using h
  rw [collisionsOf, List.getD_eq_getElem _ _ hlen, List.getElem_map, List.getElem_range]

/-! ### Counting trials: the evolution of `t` versus `sum(N)` -/

theorem applyOne_N_matrix (fs cols : List Bool) (j Ij : ℕ) (s : State) :
    (applyOne fs cols j Ij s).N = modify2 (· + 1) j Ij s.N := by
  simp only [applyOne]
  split <;> rfl

theorem sum2_applyLoop_N (fs cols : List Bool) (ps : List (ℕ × ℕ)) :
    ∀ s : State, (∀ p ∈ ps, p.1 < s.N.length ∧ p.2 < (s.N.getD p.1 []).length) →
      sum2 (applyLoop fs cols ps s).N = sum2 s.N + ps.length := by
  induction ps with
  | nil => intro s _; rfl
  | cons jI rest ih =>
    intro s hin
    obtain ⟨j, Ij⟩ := jI
    have hj := (hin (j, Ij) (List.mem_cons_self _ _)).1
    have hIj := (hin (j, Ij) (List.mem_cons_self _ _)).2
    have hshape := applyOne_sameShape fs cols j Ij s
    have hrest : ∀ p ∈ rest, p.1 < (applyOne fs cols j Ij s).N.length ∧
        p.2 < ((applyOne fs cols j Ij s).N.getD p.1 []).length := by
      intro p hp
      have h := hin p (List.mem_cons_of_mem _ hp)
      exact ⟨hshape.2.2.1 ▸ h.1, (hshape.2.2.2.2.2.2.1 p.1) ▸ h.2⟩
    rw [applyLoop, ih _ hrest, applyOne_N_matrix, sum2_modify2_add 1 hj hIj,
      List.length_cons]
    ring

theorem sum2_applyDelta_N {Kv : ℕ} (K : ℕ) (fs : List Bool) {ds : List ℕ} {s : State}
    (hrows : ds.length ≤ s.N.length)
    (hcols : ∀ i, i < s.N.length → (s.N.getD i []).length = Kv)
    (harms : ∀ a ∈ ds, a < Kv) :
    sum2 (applyDelta K fs ds s).N = sum2 s.N + ds.length := by
  rw [applyDelta]
  have hin : ∀ p ∈ ds.enum,
      p.1 < ({ s with t := s.t + 1, depth := s.depth - 1 } : State).N.length ∧
      p.2 < (({ s with t := s.t + 1, depth := s.depth - 1 } : State).N.getD p.1 []).length := by
    intro p hp
    obtain ⟨i, a⟩ := p
    have h := List.mem_enumFrom hp
    simp only [Nat.sub_zero, Nat.zero_add] at h
    have hi : i < ds.length := h.2.1
    have ha : a ∈ ds := by
      rw [h.2.2]
      exact ds.getElem_mem hi
    refine ⟨lt_of_lt_of_le hi hrows, ?_⟩
    rw [hcols i (lt_of_lt_of_le hi hrows)]
    exact harms a ha
  rw [sum2_applyLoop_N fs _ ds.enum _ hin, List.enum_length]

theorem mem_of_mem_listProd {α : Type} {L : List (List α)} {v : List α}
    (hv : v ∈ listProd L) : ∀ a ∈ v, ∃ l ∈ L, a ∈ l := by
  have h := mem_listProd.1 hv
  clear hv
  induction h with
  | nil => intro a ha; simp at ha
  | @cons x l v2 L2 hx _ ih =>
    intro a ha
    rcases List.mem_cons.1 ha with rfl | h2
    · exact ⟨l, List.mem_cons_self _ _, hx⟩
    · obtain ⟨l2, hl2, hal2⟩ := ih a h2
      exact ⟨l2, List.mem_cons_of_mem _ hl2, hal2⟩

theorem wf_copy {Mv Kv : ℕ} {s : State} (h : WFState Mv Kv s) :
    WFState Mv Kv (State.copy s) := by
  obtain ⟨h1, h2, h3, h4, h5, h6, h7, h8, h9, h10, h11, h12⟩ := h
  have hhead : (s.S.headD []).length = Kv := by
    rw [headD_eq_getD_zero]
    exact h9 0 h1
  refine ⟨h1, h2, ?_, ?_, h5, h6, h7, h8, h9, h10, h11, h12⟩
  · show shapeM s.S = Mv
    rw [shapeM, h5, hhead]
    omega
  · show shapeK s.S = Kv
    rw [shapeK, h5, hhead]
    omega

theorem wf_applyDelta {Mv Kv : ℕ} {s : State} (h : WFState Mv Kv s)
    (K : ℕ) (fs : List Bool) (ds : List ℕ) :
    WFState Mv Kv (applyDelta K fs ds s) := by
  obtain ⟨h1, h2, h3, h4, h5, h6, h7, h8, h9, h10, h11, h12⟩ := h
  obtain ⟨g1, g2, g3, g4, g5, g6, g7, g8, g9, g10⟩ := applyDelta_sameShape K fs ds s
  exact ⟨h1, h2, g9.trans h3, g10.trans h4, g1.trans h5, g2.trans h6, g3.trans h7,
    g4.trans h8,
    fun i hi => (g5 i).trans (h9 i hi), fun i hi => (g6 i).trans (h10 i hi),
    fun i hi => (g7 i).trans (h11 i hi), fun i hi => (g8 i).trans (h12 i hi)⟩

theorem copy_t (s : State) : (State.copy s).t = sum2 s.N := rfl

theorem copy_N (s : State) : (State.copy s).N = s.N := rfl

theorem reachable_invariant {players : List Policy} {Mv Kv : ℕ}
    {S0 St0 N0 Nt0 : List (List ℕ)} {d0 : ℤ}
    (hM : players.length = Mv)
    (harms : ∀ jp ∈ players.enum, ∀ (u : State), ∀ a ∈ jp.2 jp.1 u, a < Kv)
    (hwf0 : WFState Mv Kv (mkState S0 St0 N0 Nt0 d0)) :
    ∀ s, Reachable players (mkState S0 St0 N0 Nt0 d0) s →
      WFState Mv Kv s ∧ (s.t = sum2 s.N ∨ sum2 s.N + 1 = s.t + s.M) := by
  intro s hreach
  induction hreach with
  | refl => exact ⟨hwf0, Or.inl rfl⟩
  | @step u ds fs hu hds hfs ih =>
    obtain ⟨hwf, -⟩ := ih
    have hwfc : WFState Mv Kv (State.copy u) := wf_copy hwf
    have hwfchild : WFState Mv Kv (applyDelta u.K fs ds (State.copy u)) :=
      wf_applyDelta hwfc u.K fs ds
    refine ⟨hwfchild, Or.inr ?_⟩
    have hlen : ds.length = Mv := by
      rw [length_of_mem_listProd hds, allDecisions, List.length_map,
        List.enum_length, hM]
    have harmsds : ∀ a ∈ ds, a < Kv := by
      intro a ha
      obtain ⟨l, hl, hal⟩ := mem_of_mem_listProd hds a ha
      rw [allDecisions] at hl
      obtain ⟨jp, hjp, rfl⟩ := List.mem_map.1 hl
      exact harms jp hjp u a hal
    have hsum : sum2 (applyDelta u.K fs ds (State.copy u)).N =
        sum2 (State.copy u).N + ds.length := by
      refine sum2_applyDelta_N u.K fs ?_ ?_ harmsds
      · rw [hlen, copy_N, hwf.2.2.2.2.2.2.1]
      · intro i hi
        rw [copy_N] at hi ⊢
        exact hwf.2.2.2.2.2.2.2.2.2.2.1 i (hwf.2.2.2.2.2.2.1 ▸ hi)
    have ht : (applyDelta u.K fs ds (State.copy u)).t = sum2 u.N + 1 := by
      rw [applyDelta_t, copy_t]
    have hMfield : (applyDelta u.K fs ds (State.copy u)).M = Mv := hwfchild.2.2.1
    rw [hsum, copy_N, ht, hMfield, hlen]
    ring

/-! ### The absorbing-state heuristic -/

theorem dedup_length_eq_iff (l : List ℕ) : l.dedup.length = l.length ↔ l.Nodup := by
  constructor
  · intro h
    exact List.dedup_eq_self.1 ((List.dedup_sublist l).eq_of_length h)
  · intro h
    rw [List.dedup_eq_self.2 h]

theorem rowsAllEqual_iff (s : State) (j1 j2 : ℕ) :
    rowsAllEqual s j1 j2 = true ↔
      (s.S.getD j1 [] = s.S.getD j2 [] ∧ s.Stilde.getD j1 [] = s.Stilde.getD j2 [] ∧
       s.N.getD j1 [] = s.N.getD j2 [] ∧ s.Ntilde.getD j1 [] = s.Ntilde.getD j2 []) := by
  rw [rowsAllEqual, decide_eq_true_iff]

theorem is_absorbing_iff_spec (s : State) : is_absorbing s = true ↔ AbsorbingSpec s := by
  rw [is_absorbing]
  by_cases hmin : (s.N.flatMap id).any (fun x => decide (x < 1)) = true
  · rw [if_pos hmin]
    simp only [List.any_eq_true, List.mem_flatMap, id, decide_eq_true_iff] at hmin
    obtain ⟨x, ⟨row, hrow, hx⟩, hlt⟩ := hmin
    constructor
    · intro h; exact absurd h Bool.false_ne_true
    · rintro ⟨ha, -⟩
      exact absurd (ha row hrow x hx) (by omega)
  · rw [if_neg hmin]
    simp only [List.any_eq_true, List.mem_flatMap, id, decide_eq_true_iff,
      not_exists, not_and] at hmin
    push_neg at hmin
    have hge : ∀ row ∈ s.N, ∀ x ∈ row, 1 ≤ x := by
      intro row hrow x hx
      have := hmin x ⟨row, hrow, hx⟩
      omega
    simp only [List.any_eq_true, List.mem_range, Bool.and_eq_true, beq_iff_eq,
      List.mem_range'_1, rowsAllEqual_iff]
    constructor
    · rintro ⟨j1, hj1, j2, ⟨hj2lo, hj2hi⟩, ⟨e1, e2, e3, e4⟩, hnd⟩
      have hj2 : j2 < s.M := by omega
      exact ⟨hge, j1, j2, hj1, hj2, by omega, e1, e2, e3, e4,
        (dedup_length_eq_iff _).1 hnd⟩
    · rintro ⟨-, j1, j2, hj1, hj2, hne, e1, e2, e3, e4, hnd⟩
      rcases Nat.lt_or_ge j1 j2 with hlt | hge2
      · exact ⟨j1, hj1, j2, ⟨by omega, by omega⟩, ⟨e1, e2, e3, e4⟩,
          (dedup_length_eq_iff _).2 hnd⟩
      · have hlt : j2 < j1 := by omega
        refine ⟨j2, hj2, j1, ⟨by omega, by omega⟩, ⟨e1.symm, e2.symm, e3.symm, e4.symm⟩,
          (dedup_length_eq_iff _).2 ?_⟩
        rw [← e2]
        exact hnd

/-! ### The generator produces exactly the spec's pairs -/

theorem probaOfFlip_eq_range (mus : List ℚ) (fs : List Bool)
    (h : fs.length = mus.length) :
    probaOfFlip mus fs =
      ((List.range mus.length).map
        (fun k => if fs.getD k false then mus.getD k 0 else 1 - mus.getD k 0)).prod := by
  induction mus generalizing fs with
  | nil => cases fs <;> simp [probaOfFlip] at h ⊢
  | cons mu rest ih =>
    cases fs with
    | nil => simp at h
    | cons b bs =>
      rw [probaOfFlip_cons, List.length_cons, List.range_succ_eq_map,
        List.map_cons, List.prod_cons, List.map_map]
      have hcong : ∀ k ∈ List.range rest.length,
          ((fun k => if (b :: bs).getD k false then (mu :: rest).getD k 0
              else 1 - (mu :: rest).getD k 0) ∘ Nat.succ) k =
          (fun k => if bs.getD k false then rest.getD k 0 else 1 - rest.getD k 0) k := by
        intro k _; rfl
      rw [List.map_congr_left hcong, ← ih bs (by simpa using h)]
      rfl

theorem all_deltas_eq_spec (players : List Policy) (mus : List ℚ) (s : State)
    (hmus : mus.length = s.K) :
    all_deltas players mus s =
      (listProd (allDecisions players s)).flatMap (fun ds =>
        (boolVecs s.K).map (fun fs =>
          (applyDelta s.K fs ds, specProbability mus (allDecisions players s) fs))) := by
  rw [all_deltas]
  refine List.flatMap_congr (fun ds _ => ?_)
  refine List.map_congr_left (fun fs hfs => ?_)
  have hflen : fs.length = mus.length := by
    rw [length_of_mem_boolVecs hfs, hmus]
  rw [Prod.mk.injEq]
  refine ⟨rfl, ?_⟩
  rw [specProbability, ← probaOfFlip_eq_range mus fs hflen, length_listProd]
  rfl

theorem length_flatMap_const {α β : Type} (l : List α) (f : α → List β) (c : ℕ)
    (h : ∀ a ∈ l, (f a).length = c) : (l.flatMap f).length = l.length * c := by
  induction l with
  | nil => simp
  | cons x xs ih =>
    rw [List.flatMap_cons, List.length_append, h x (List.mem_cons_self _ _),
      ih (fun a ha => h a (List.mem_cons_of_mem _ ha)), List.length_cons]
    ring

theorem all_deltas_length_eq (players : List Policy) (mus : List ℚ) (s : State) :
    (all_deltas players mus s).length =
      numberOfDecisions (allDecisions players s) * 2 ^ s.K := by
  rw [all_deltas]
  rw [length_flatMap_const _ _ (2 ^ s.K)
    (fun ds _ => by rw [List.length_map, length_boolVecs])]
  rw [length_listProd]
  rfl

/-! ### Tie sets are never empty -/

theorem foldl_max_mem {α : Type} [LinearOrder α] (x : α) (xs : List α) :
    List.foldl max x xs = x ∨ List.foldl max x xs ∈ xs := by
  induction xs generalizing x with
  | nil => exact Or.inl rfl
  | cons y ys ih =>
    rw [List.foldl_cons]
    rcases ih (max x y) with h | h
    · rcases max_choice x y with hm | hm
      · exact Or.inl (h.trans hm)
      · exact Or.inr (by rw [h, hm]; exact List.mem_cons_self _ _)
    · exact Or.inr (List.mem_cons_of_mem _ h)

theorem choices_from_indexes_ne_nil {α : Type} [LinearOrder α] {l : List α}
    (h : l ≠ []) : choices_from_indexes l ≠ [] := by
  cases l with
  | nil => exact absurd rfl h
  | cons x xs =>
    rw [choices_from_indexes]
    have hex : ∃ i ∈ List.range (x :: xs).length,
        (x :: xs).getD i x = List.foldl max x xs := by
      rcases foldl_max_mem x xs with hm | hm
      · exact ⟨0, List.mem_range.2 (by simp), hm.symm ▸ rfl⟩
      · obtain ⟨k, hk, hkm⟩ := List.mem_iff_getElem.1 hm
        refine ⟨k + 1, List.mem_range.2 (by simpa using Nat.succ_lt_succ hk), ?_⟩
        rw [show ((x :: xs).getD (k + 1) x) = xs.getD k x from rfl,
          List.getD_eq_getElem _ _ hk, hkm]
    obtain ⟨i, hi, hpi⟩ := hex
    have : i ∈ (List.range (x :: xs).length).filter
        (fun i => (x :: xs).getD i x = List.foldl max x xs) :=
      List.mem_filter.2 ⟨hi, decide_eq_true hpi⟩
    exact List.ne_nil_of_mem this

/-! ### The claims -/

/-- C1: for every State on which one level of expansion has been computed,
the probability values attached to its children sum to exactly 1 in the
rational value domain, provided every player's decision rule returned a
non-empty tie set (and the State is well-formed: `len(mus) = K`). -/
theorem claim1_probas_sum_one (players : List Policy) (mus : List ℚ) (s : State)
    (hmus : mus.length = s.K)
    (hne : ∀ d ∈ allDecisions players { s with depth := s.depth + 1 }, d ≠ []) :
    (((compute_one_depth players mus s).2).map Prod.fst).sum = 1 :=
  compute_probas_sum players mus s hmus hne

/-- Witness for C1 at the all-zero `M = K = 1` root with `mu_1 = 1/2`. -/
theorem claim1_probas_sum_one_witness :
    ([(1 : ℚ)/2].length = (mkState [[0]] [[0]] [[0]] [[0]] 0).K ∧
     (∀ d ∈ allDecisions [FixedArm]
        { mkState [[0]] [[0]] [[0]] [[0]] 0 with
          depth := (mkState [[0]] [[0]] [[0]] [[0]] 0).depth + 1 }, d ≠ [])) ∧
    (((compute_one_depth [FixedArm] [(1 : ℚ)/2]
        (mkState [[0]] [[0]] [[0]] [[0]] 0)).2).map Prod.fst).sum = 1 :=
  ⟨⟨by decide, by decide⟩,
   claim1_probas_sum_one [FixedArm] [(1 : ℚ)/2] (mkState [[0]] [[0]] [[0]] [[0]] 0)
     (by decide) (by decide)⟩

/-- C2 counterexample: exploring a root to depth 0 is a no-op, so
`get_unique_leafs` returns no leaves at all and the leaf probabilities sum
to 0, not 1; the claimed range `0 ≤ d ≤ 8` fails at `d = 0`. -/
theorem claim2_depth0_counterexample :
    ¬ (((get_unique_leafs (explore [FixedArm] [(1 : ℚ)/2] 0
        (mkState [[0]] [[0]] [[0]] [[0]] 0))).map Prod.fst).sum = 1) := by
  intro h
  rw [explore, get_unique_leafs] at h
  rw [get_all_leafs] at h
  simp only [show ((mkState [[0]] [[0]] [[0]] [[0]] 0).depth ≤ 1) from by decide,
    if_pos, List.map_nil] at h
  rw [show mergeAll [] = [] from rfl] at h
  simp at h

/-- C2 (amended): for every depth `d` with `1 ≤ d ≤ 8`, after exploring a
root State to depth `d`, the probabilities returned by `get_unique_leafs`
sum to exactly 1 in the rational value domain (for `d = 0` exploration is a
no-op and the sum is 0, there being no leaves); this needs the decision-rule
contract (non-empty tie sets) and a well-formed root (`K = len(mus)`). -/
theorem claim2_leaf_sum_one (players : List Policy) (mus : List ℚ) (d : ℕ) (s : State)
    (hd1 : 1 ≤ d) (hd8 : d ≤ 8)
    (hne : ∀ p ∈ players, ∀ (j : ℕ) (u : State), p j u ≠ [])
    (hK : s.K = mus.length) (hshape : shapeK s.S = mus.length) :
    ((get_unique_leafs (explore players mus d s)).map Prod.fst).sum = 1 := by
  rw [get_unique_leafs, mergeAll_sum]
  exact explore_leafSum players mus hne d s hd1 ⟨hK, hshape⟩

/-- Witness for C2 at the all-zero `M = K = 1` root, depth 1, `mu_1 = 1/2`. -/
theorem claim2_leaf_sum_one_witness :
    ((1 : ℕ) ≤ 1 ∧ (1 : ℕ) ≤ 8 ∧
     (∀ p ∈ [FixedArm], ∀ (j : ℕ) (u : State), p j u ≠ []) ∧
     (mkState [[0]] [[0]] [[0]] [[0]] 0).K = [(1 : ℚ)/2].length ∧
     shapeK (mkState [[0]] [[0]] [[0]] [[0]] 0).S = [(1 : ℚ)/2].length) ∧
    ((get_unique_leafs (explore [FixedArm] [(1 : ℚ)/2] 1
        (mkState [[0]] [[0]] [[0]] [[0]] 0))).map Prod.fst).sum = 1 := by
  have hne : ∀ p ∈ [FixedArm], ∀ (j : ℕ) (u : State), p j u ≠ [] := by
    intro p hp j u
    rcases List.mem_cons.1 hp with rfl | h2
    · exact List.cons_ne_nil _ _
    · simp at h2
  exact ⟨⟨le_refl 1, by decide, hne, by decide, by decide⟩,
    claim2_leaf_sum_one [FixedArm] [(1 : ℚ)/2] 1 (mkState [[0]] [[0]] [[0]] [[0]] 0)
      (le_refl 1) (by decide) hne (by decide) (by decide)⟩

/-- C3: a transition function, applied to a (copy of a) State, increments
`S[j][Ij]` by the realization outcome and `N[j][Ij]` by 1 for every player
`j` choosing arm `Ij`; it increments `Stilde[j][Ij]`/`Ntilde[j][Ij]` the
same way only when at most one player chose `Ij`, and leaves them unchanged
on a collision; it increments `t` by 1 and decrements `depth` by 1; all
other counter entries are unchanged. -/
theorem claim3_transition_effect (Kv : ℕ) (fs : List Bool) (ds : List ℕ) (s : State)
    (hS : ds.length ≤ s.S.length) (hSt : ds.length ≤ s.Stilde.length)
    (hN : ds.length ≤ s.N.length) (hNt : ds.length ≤ s.Ntilde.length)
    (hrowS : ∀ i, i < ds.length → (s.S.getD i []).length = Kv)
    (hrowSt : ∀ i, i < ds.length → (s.Stilde.getD i []).length = Kv)
    (hrowN : ∀ i, i < ds.length → (s.N.getD i []).length = Kv)
    (hrowNt : ∀ i, i < ds.length → (s.Ntilde.getD i []).length = Kv)
    (harms : ∀ a ∈ ds, a < Kv) :
    (applyDelta Kv fs ds s).t = s.t + 1 ∧
    (applyDelta Kv fs ds s).depth = s.depth - 1 ∧
    (∀ j, j < ds.length →
      entry2 (applyDelta Kv fs ds s).S j (ds.getD j 0) =
        entry2 s.S j (ds.getD j 0) + (if fs.getD (ds.getD j 0) false then 1 else 0) ∧
      entry2 (applyDelta Kv fs ds s).N j (ds.getD j 0) =
        entry2 s.N j (ds.getD j 0) + 1 ∧
      (2 ≤ ds.count (ds.getD j 0) →
        entry2 (applyDelta Kv fs ds s).Stilde j (ds.getD j 0) =
          entry2 s.Stilde j (ds.getD j 0) ∧
        entry2 (applyDelta Kv fs ds s).Ntilde j (ds.getD j 0) =
          entry2 s.Ntilde j (ds.getD j 0)) ∧
      (ds.count (ds.getD j 0) ≤ 1 →
        entry2 (applyDelta Kv fs ds s).Stilde j (ds.getD j 0) =
          entry2 s.Stilde j (ds.getD j 0) +
            (if fs.getD (ds.getD j 0) false then 1 else 0) ∧
        entry2 (applyDelta Kv fs ds s).Ntilde j (ds.getD j 0) =
          entry2 s.Ntilde j (ds.getD j 0) + 1)) ∧
    (∀ j k, (j < ds.length → k ≠ ds.getD j 0) →
      entry2 (applyDelta Kv fs ds s).S j k = entry2 s.S j k ∧
      entry2 (applyDelta Kv fs ds s).Stilde j k = entry2 s.Stilde j k ∧
      entry2 (applyDelta Kv fs ds s).N j k = entry2 s.N j k ∧
      entry2 (applyDelta Kv fs ds s).Ntilde j k = entry2 s.Ntilde j k) := by
  refine ⟨applyDelta_t Kv fs ds s, applyDelta_depth Kv fs ds s, ?_, ?_⟩
  · intro j hj
    have hmem : (j, ds.getD j 0) ∈ ds.enum := mem_enum_getD hj
    have hrow := applyLoop_row fs (collisionsOf Kv ds) hmem (enum_fst_nodup ds)
      { s with t := s.t + 1, depth := s.depth - 1 }
    have hIjK : ds.getD j 0 < Kv := by
      refine harms _ ?_
      rw [List.getD_eq_getElem _ _ hj]
      exact ds.getElem_mem hj
    have hcolget := collisionsOf_getD ds hIjK
    refine ⟨?_, ?_, ?_, ?_⟩
    · rw [entry2, entry2, show (applyDelta Kv fs ds s).S =
        (applyLoop fs (collisionsOf Kv ds) ds.enum
          { s with t := s.t + 1, depth := s.depth - 1 }).S from rfl, hrow.1]
      exact modifyAt_getD_self _ (by rw [hrowS j hj]; exact hIjK) 0
    · rw [entry2, entry2, show (applyDelta Kv fs ds s).N =
        (applyLoop fs (collisionsOf Kv ds) ds.enum
          { s with t := s.t + 1, depth := s.depth - 1 }).N from rfl, hrow.2.1]
      exact modifyAt_getD_self _ (by rw [hrowN j hj]; exact hIjK) 0
    · intro hcount
      have hcol : (collisionsOf Kv ds).getD (ds.getD j 0) false = true := by
        rw [hcolget]
        exact decide_eq_true hcount
      constructor
      · rw [entry2, entry2, show (applyDelta Kv fs ds s).Stilde =
          (applyLoop fs (collisionsOf Kv ds) ds.enum
            { s with t := s.t + 1, depth := s.depth - 1 }).Stilde from rfl,
          hrow.2.2.1, if_pos hcol]
      · rw [entry2, entry2, show (applyDelta Kv fs ds s).Ntilde =
          (applyLoop fs (collisionsOf Kv ds) ds.enum
            { s with t := s.t + 1, depth := s.depth - 1 }).Ntilde from rfl,
          hrow.2.2.2, if_pos hcol]
    · intro hcount
      have hcol : ¬ ((collisionsOf Kv ds).getD (ds.getD j 0) false = true) := by
        rw [hcolget]
        simp only [decide_eq_true_eq]
        omega
      constructor
      · rw [entry2, entry2, show (applyDelta Kv fs ds s).Stilde =
          (applyLoop fs (collisionsOf Kv ds) ds.enum
            { s with t := s.t + 1, depth := s.depth - 1 }).Stilde from rfl,
          hrow.2.2.1, if_neg hcol]
        exact modifyAt_getD_self _ (by rw [hrowSt j hj]; exact hIjK) 0
      · rw [entry2, entry2, show (applyDelta Kv fs ds s).Ntilde =
          (applyLoop fs (collisionsOf Kv ds) ds.enum
            { s with t := s.t + 1, depth := s.depth - 1 }).Ntilde from rfl,
          hrow.2.2.2, if_neg hcol]
        exact modifyAt_getD_self _ (by rw [hrowNt j hj]; exact hIjK) 0
  · intro j k hk
    by_cases hj : j < ds.length
    · have hkne := hk hj
      have hmem : (j, ds.getD j 0) ∈ ds.enum := mem_enum_getD hj
      have hrow := applyLoop_row fs (collisionsOf Kv ds) hmem (enum_fst_nodup ds)
        { s with t := s.t + 1, depth := s.depth - 1 }
      refine ⟨?_, ?_, ?_, ?_⟩
      · rw [entry2, entry2, show (applyDelta Kv fs ds s).S =
          (applyLoop fs (collisionsOf Kv ds) ds.enum
            { s with t := s.t + 1, depth := s.depth - 1 }).S from rfl, hrow.1,
          modifyAt_getD_ne _ _ hkne 0]
      · rw [entry2, entry2, show (applyDelta Kv fs ds s).Stilde =
          (applyLoop fs (collisionsOf Kv ds) ds.enum
            { s with t := s.t + 1, depth := s.depth - 1 }).Stilde from rfl,
          hrow.2.2.1]
        split
        · rfl
        · rw [modifyAt_getD_ne _ _ hkne 0]
      · rw [entry2, entry2, show (applyDelta Kv fs ds s).N =
          (applyLoop fs (collisionsOf Kv ds) ds.enum
            { s with t := s.t + 1, depth := s.depth - 1 }).N from rfl, hrow.2.1,
          modifyAt_getD_ne _ _ hkne 0]
      · rw [entry2, entry2, show (applyDelta Kv fs ds s).Ntilde =
          (applyLoop fs (collisionsOf Kv ds) ds.enum
            { s with t := s.t + 1, depth := s.depth - 1 }).Ntilde from rfl,
          hrow.2.2.2]
        split
        · rfl
        · rw [modifyAt_getD_ne _ _ hkne 0]
    · have hnotin : j ∉ ds.enum.map Prod.fst := by
        rw [List.enum_map_fst]
        intro hmem
        exact hj (List.mem_range.1 hmem)
      have hrow := applyLoop_row_untouched fs (collisionsOf Kv ds) ds.enum
        { s with t := s.t + 1, depth := s.depth - 1 } hnotin
      exact ⟨congrArg (fun r => r.getD k 0) hrow.1,
        congrArg (fun r => r.getD k 0) hrow.2.1,
        congrArg (fun r => r.getD k 0) hrow.2.2.1,
        congrArg (fun r => r.getD k 0) hrow.2.2.2⟩

/-- Witness for C3: two players colliding on arm 0 of a 2×1 problem with a
success realization: both `S`/`N` entries advance, `Stilde`/`Ntilde` do not,
`t` advances, `depth` decreases. -/
theorem claim3_transition_effect_witness :
    (([0, 0] : List ℕ).length ≤ (mkState [[1], [2]] [[1], [2]] [[3], [4]] [[3], [4]] 5).S.length ∧
     ([0, 0] : List ℕ).length ≤ (mkState [[1], [2]] [[1], [2]] [[3], [4]] [[3], [4]] 5).Stilde.length ∧
     ([0, 0] : List ℕ).length ≤ (mkState [[1], [2]] [[1], [2]] [[3], [4]] [[3], [4]] 5).N.length ∧
     ([0, 0] : List ℕ).length ≤ (mkState [[1], [2]] [[1], [2]] [[3], [4]] [[3], [4]] 5).Ntilde.length ∧
     (∀ i, i < ([0, 0] : List ℕ).length →
       ((mkState [[1], [2]] [[1], [2]] [[3], [4]] [[3], [4]] 5).S.getD i []).length = 1) ∧
     (∀ i, i < ([0, 0] : List ℕ).length →
       ((mkState [[1], [2]] [[1], [2]] [[3], [4]] [[3], [4]] 5).Stilde.getD i []).length = 1) ∧
     (∀ i, i < ([0, 0] : List ℕ).length →
       ((mkState [[1], [2]] [[1], [2]] [[3], [4]] [[3], [4]] 5).N.getD i []).length = 1) ∧
     (∀ i, i < ([0, 0] : List ℕ).length →
       ((mkState [[1], [2]] [[1], [2]] [[3], [4]] [[3], [4]] 5).Ntilde.getD i []).length = 1) ∧
     (∀ a ∈ ([0, 0] : List ℕ), a < 1)) ∧
    ((applyDelta 1 [true] [0, 0] (mkState [[1], [2]] [[1], [2]] [[3], [4]] [[3], [4]] 5)).t =
       (mkState [[1], [2]] [[1], [2]] [[3], [4]] [[3], [4]] 5).t + 1 ∧
     (applyDelta 1 [true] [0, 0] (mkState [[1], [2]] [[1], [2]] [[3], [4]] [[3], [4]] 5)).depth =
       (mkState [[1], [2]] [[1], [2]] [[3], [4]] [[3], [4]] 5).depth - 1 ∧
     (∀ j, j < ([0, 0] : List ℕ).length →
       entry2 (applyDelta 1 [true] [0, 0]
           (mkState [[1], [2]] [[1], [2]] [[3], [4]] [[3], [4]] 5)).S j (([0, 0] : List ℕ).getD j 0) =
         entry2 (mkState [[1], [2]] [[1], [2]] [[3], [4]] [[3], [4]] 5).S j
             (([0, 0] : List ℕ).getD j 0) +
           (if ([true] : List Bool).getD (([0, 0] : List ℕ).getD j 0) false then 1 else 0) ∧
       entry2 (applyDelta 1 [true] [0, 0]
           (mkState [[1], [2]] [[1], [2]] [[3], [4]] [[3], [4]] 5)).N j (([0, 0] : List ℕ).getD j 0) =
         entry2 (mkState [[1], [2]] [[1], [2]] [[3], [4]] [[3], [4]] 5).N j
           (([0, 0] : List ℕ).getD j 0) + 1 ∧
       (2 ≤ ([0, 0] : List ℕ).count (([0, 0] : List ℕ).getD j 0) →
         entry2 (applyDelta 1 [true] [0, 0]
             (mkState [[1], [2]] [[1], [2]] [[3], [4]] [[3], [4]] 5)).Stilde j
             (([0, 0] : List ℕ).getD j 0) =
           entry2 (mkState [[1], [2]] [[1], [2]] [[3], [4]] [[3], [4]] 5).Stilde j
             (([0, 0] : List ℕ).getD j 0) ∧
         entry2 (applyDelta 1 [true] [0, 0]
             (mkState [[1], [2]] [[1], [2]] [[3], [4]] [[3], [4]] 5)).Ntilde j
             (([0, 0] : List ℕ).getD j 0) =
           entry2 (mkState [[1], [2]] [[1], [2]] [[3], [4]] [[3], [4]] 5).Ntilde j
             (([0, 0] : List ℕ).getD j 0)) ∧
       (([0, 0] : List ℕ).count (([0, 0] : List ℕ).getD j 0) ≤ 1 →
         entry2 (applyDelta 1 [true] [0, 0]
             (mkState [[1], [2]] [[1], [2]] [[3], [4]] [[3], [4]] 5)).Stilde j
             (([0, 0] : List ℕ).getD j 0) =
           entry2 (mkState [[1], [2]] [[1], [2]] [[3], [4]] [[3], [4]] 5).Stilde j
               (([0, 0] : List ℕ).getD j 0) +
             (if ([true] : List Bool).getD (([0, 0] : List ℕ).getD j 0) false then 1 else 0) ∧
         entry2 (applyDelta 1 [true] [0, 0]
             (mkState [[1], [2]] [[1], [2]] [[3], [4]] [[3], [4]] 5)).Ntilde j
             (([0, 0] : List ℕ).getD j 0) =
           entry2 (mkState [[1], [2]] [[1], [2]] [[3], [4]] [[3], [4]] 5).Ntilde j
             (([0, 0] : List ℕ).getD j 0) + 1)) ∧
     (∀ j k, (j < ([0, 0] : List ℕ).length → k ≠ ([0, 0] : List ℕ).getD j 0) →
       entry2 (applyDelta 1 [true] [0, 0]
           (mkState [[1], [2]] [[1], [2]] [[3], [4]] [[3], [4]] 5)).S j k =
         entry2 (mkState [[1], [2]] [[1], [2]] [[3], [4]] [[3], [4]] 5).S j k ∧
       entry2 (applyDelta 1 [true] [0, 0]
           (mkState [[1], [2]] [[1], [2]] [[3], [4]] [[3], [4]] 5)).Stilde j k =
         entry2 (mkState [[1], [2]] [[1], [2]] [[3], [4]] [[3], [4]] 5).Stilde j k ∧
       entry2 (applyDelta 1 [true] [0, 0]
           (mkState [[1], [2]] [[1], [2]] [[3], [4]] [[3], [4]] 5)).N j k =
         entry2 (mkState [[1], [2]] [[1], [2]] [[3], [4]] [[3], [4]] 5).N j k ∧
       entry2 (applyDelta 1 [true] [0, 0]
           (mkState [[1], [2]] [[1], [2]] [[3], [4]] [[3], [4]] 5)).Ntilde j k =
         entry2 (mkState [[1], [2]] [[1], [2]] [[3], [4]] [[3], [4]] 5).Ntilde j k)) :=
  ⟨⟨by decide, by decide, by decide, by decide, by decide, by decide, by decide,
    by decide, by decide⟩,
   claim3_transition_effect 1 [true] [0, 0]
     (mkState [[1], [2]] [[1], [2]] [[3], [4]] [[3], [4]] 5)
     (by decide) (by decide) (by decide) (by decide) (by decide) (by decide)
     (by decide) (by decide) (by decide)⟩

/-- C4: every (probability, transition) pair the generator yields carries the
probability given by the spec's formula: the product over arms of `mu_k` for
a success and `1 - mu_k` for a failure, divided by the number of whole joint
decision vectors (uniform tie weighting across joint decisions, not per
player); the pairs are exactly one per (decision vector, realization). -/
theorem claim4_probability_formula (players : List Policy) (mus : List ℚ) (s : State)
    (hmus : mus.length = s.K) :
    all_deltas players mus s =
      (listProd (allDecisions players s)).flatMap (fun ds =>
        (boolVecs s.K).map (fun fs =>
          (applyDelta s.K fs ds, specProbability mus (allDecisions players s) fs))) :=
  all_deltas_eq_spec players mus s hmus

/-- Witness for C4 at the all-zero `M = K = 1` root with `mu_1 = 1/2`. -/
theorem claim4_probability_formula_witness :
    ([(1 : ℚ)/2].length = (mkState [[0]] [[0]] [[0]] [[0]] 0).K) ∧
    all_deltas [FixedArm] [(1 : ℚ)/2] (mkState [[0]] [[0]] [[0]] [[0]] 0) =
      (listProd (allDecisions [FixedArm] (mkState [[0]] [[0]] [[0]] [[0]] 0))).flatMap
        (fun ds => (boolVecs (mkState [[0]] [[0]] [[0]] [[0]] 0).K).map (fun fs =>
          (applyDelta (mkState [[0]] [[0]] [[0]] [[0]] 0).K fs ds,
           specProbability [(1 : ℚ)/2]
             (allDecisions [FixedArm] (mkState [[0]] [[0]] [[0]] [[0]] 0)) fs))) :=
  ⟨by decide,
   claim4_probability_formula [FixedArm] [(1 : ℚ)/2]
     (mkState [[0]] [[0]] [[0]] [[0]] 0) (by decide)⟩

/-- C5: the generator yields exactly
`(number of joint decision vectors) × 2 ^ K` pairs, the number of joint
decision vectors being the product over players of their tie-set sizes. -/
theorem claim5_generator_size (players : List Policy) (mus : List ℚ) (s : State) :
    (all_deltas players mus s).length =
      numberOfDecisions (allDecisions players s) * 2 ^ s.K :=
  all_deltas_length_eq players mus s

/-- C6 counterexample: from the all-zero 2-player, 2-arm root, one step with
both players' (FixedArm) decisions and an all-success realization reaches a
State with `t = 1` but `sum(N) = 2`: `t` does not equal the sum of `N`. -/
theorem claim6_counterexample :
    Reachable [FixedArm, FixedArm]
      (mkState (zeros2 2 2) (zeros2 2 2) (zeros2 2 2) (zeros2 2 2) 0)
      (applyDelta (mkState (zeros2 2 2) (zeros2 2 2) (zeros2 2 2) (zeros2 2 2) 0).K
        [true, true] [0, 1]
        (State.copy (mkState (zeros2 2 2) (zeros2 2 2) (zeros2 2 2) (zeros2 2 2) 0))) ∧
    ¬ ((applyDelta (mkState (zeros2 2 2) (zeros2 2 2) (zeros2 2 2) (zeros2 2 2) 0).K
          [true, true] [0, 1]
          (State.copy (mkState (zeros2 2 2) (zeros2 2 2) (zeros2 2 2) (zeros2 2 2) 0))).t =
        sum2 (applyDelta (mkState (zeros2 2 2) (zeros2 2 2) (zeros2 2 2) (zeros2 2 2) 0).K
          [true, true] [0, 1]
          (State.copy (mkState (zeros2 2 2) (zeros2 2 2) (zeros2 2 2) (zeros2 2 2) 0))).N) :=
  ⟨Reachable.step Reachable.refl (by decide) (by decide), by decide⟩

/-- C6 (amended): the root as constructed satisfies `t = sum(N)`; every
reachable State satisfies `t = sum(N)` or `sum(N) + 1 = t + M` (a transition
first copies the parent, which resets `t` to the parent's `sum(N)`, then adds
1 to `t` while `sum(N)` grows by `M`); the two agree exactly when `M = 1`. -/
theorem claim6_t_vs_sumN (players : List Policy) (Mv Kv : ℕ)
    (S0 St0 N0 Nt0 : List (List ℕ)) (d0 : ℤ)
    (hM : players.length = Mv)
    (harms : ∀ jp ∈ players.enum, ∀ (u : State), ∀ a ∈ jp.2 jp.1 u, a < Kv)
    (hwf0 : WFState Mv Kv (mkState S0 St0 N0 Nt0 d0)) :
    (mkState S0 St0 N0 Nt0 d0).t = sum2 N0 ∧
    ∀ s, Reachable players (mkState S0 St0 N0 Nt0 d0) s →
      (s.t = sum2 s.N ∨ sum2 s.N + 1 = s.t + s.M) :=
  ⟨rfl, fun s h => (reachable_invariant hM harms hwf0 s h).2⟩

/-- Witness for C6 (amended) on the all-zero 2-player, 2-arm root with
`FixedArm` players. -/
theorem claim6_t_vs_sumN_witness :
    (([FixedArm, FixedArm] : List Policy).length = 2 ∧
     (∀ jp ∈ ([FixedArm, FixedArm] : List Policy).enum, ∀ (u : State),
        ∀ a ∈ jp.2 jp.1 u, a < 2) ∧
     WFState 2 2 (mkState (zeros2 2 2) (zeros2 2 2) (zeros2 2 2) (zeros2 2 2) 0)) ∧
    ((mkState (zeros2 2 2) (zeros2 2 2) (zeros2 2 2) (zeros2 2 2) 0).t =
       sum2 (zeros2 2 2) ∧
     ∀ s, Reachable [FixedArm, FixedArm]
        (mkState (zeros2 2 2) (zeros2 2 2) (zeros2 2 2) (zeros2 2 2) 0) s →
       (s.t = sum2 s.N ∨ sum2 s.N + 1 = s.t + s.M)) := by
  have harms : ∀ jp ∈ ([FixedArm, FixedArm] : List Policy).enum, ∀ (u : State),
      ∀ a ∈ jp.2 jp.1 u, a < 2 := by
    intro jp hjp u a ha
    have hjp2 : jp = (0, FixedArm) ∨ jp = (1, FixedArm) := by
      rcases List.mem_cons.1 hjp with h | h
      · exact Or.inl h
      · rcases List.mem_cons.1 h with h2 | h2
        · exact Or.inr h2
        · simp at h2
    rcases hjp2 with rfl | rfl
    · rcases List.mem_cons.1 ha with rfl | h
      · omega
      · simp at h
    · rcases List.mem_cons.1 ha with rfl | h
      · omega
      · simp at h
  have hwf : WFState 2 2 (mkState (zeros2 2 2) (zeros2 2 2) (zeros2 2 2) (zeros2 2 2) 0) := by
    unfold WFState
    decide
  exact ⟨⟨rfl, harms, hwf⟩,
    claim6_t_vs_sumN [FixedArm, FixedArm] 2 2 (zeros2 2 2) (zeros2 2 2)
      (zeros2 2 2) (zeros2 2 2) 0 rfl harms hwf⟩

/-- C7 counterexample: `compute_one_depth` does not leave the parent's
`depth` unchanged: on a depth-0 root the parent's depth becomes 1. -/
theorem claim7_depth_counterexample :
    ¬ (((compute_one_depth [FixedArm] [(1 : ℚ)/2]
        (mkState [[0]] [[0]] [[0]] [[0]] 0)).1).depth =
      (mkState [[0]] [[0]] [[0]] [[0]] 0).depth) := by
  intro h
  exact absurd h (by decide)

/-- C7 (amended): expanding one level leaves the parent's `S`, `Stilde`,
`N`, `Ntilde`, `t`, `M` and `K` unchanged (only `probas`/`children` are
populated), but increments the parent's `depth` by exactly 1. -/
theorem claim7_parent_frame (players : List Policy) (mus : List ℚ) (s : State) :
    (compute_one_depth players mus s).1.S = s.S ∧
    (compute_one_depth players mus s).1.Stilde = s.Stilde ∧
    (compute_one_depth players mus s).1.N = s.N ∧
    (compute_one_depth players mus s).1.Ntilde = s.Ntilde ∧
    (compute_one_depth players mus s).1.t = s.t ∧
    (compute_one_depth players mus s).1.M = s.M ∧
    (compute_one_depth players mus s).1.K = s.K ∧
    (compute_one_depth players mus s).1.depth = s.depth + 1 :=
  ⟨rfl, rfl, rfl, rfl, rfl, rfl, rfl, rfl⟩

/-- C8: `is_absorbing` returns true iff (a) every entry of `N` is at least
1, (b) two distinct players have identical `S`, `Stilde`, `N`, `Ntilde`
rows, and (c) the shared `Stilde` row has pairwise distinct values; in
particular a State with a zero entry in `N` is never flagged absorbing. -/
theorem claim8_absorbing_characterization :
    (∀ s : State, is_absorbing s = true ↔ AbsorbingSpec s) ∧
    (∀ s : State, ∀ row ∈ s.N, 0 ∈ row → is_absorbing s = false) := by
  refine ⟨is_absorbing_iff_spec, fun s row hrow h0 => ?_⟩
  rw [Bool.eq_false_iff]
  intro htrue
  have h := (is_absorbing_iff_spec s).1 htrue
  have := h.1 row hrow 0 h0
  omega

/-- C9: the exploration entry point rejects any configuration violating
`1 ≤ M ≤ K ≤ 10` or `0 ≤ depth ≤ 8` with an error message carrying the
offending values, before building or expanding any State; within bounds it
proceeds and returns the explored tree with its unique leaves. -/
theorem claim9_main_guards (depth : ℤ) (playersOpt : Option (List Policy))
    (mus : List ℚ) (M0 : ℕ) (Sopt Stildeopt Nopt Ntildeopt : Option (List (List ℕ))) :
    (¬ (1 ≤ (effPlayers playersOpt Sopt M0).length ∧
        (effPlayers playersOpt Sopt M0).length ≤ mus.length ∧ mus.length ≤ 10) →
      main depth playersOpt mus M0 Sopt Stildeopt Nopt Ntildeopt =
        .error (msgMK (effPlayers playersOpt Sopt M0).length mus.length)) ∧
    ((1 ≤ (effPlayers playersOpt Sopt M0).length ∧
        (effPlayers playersOpt Sopt M0).length ≤ mus.length ∧ mus.length ≤ 10) →
      ¬ (0 ≤ depth ∧ depth ≤ 8) →
      main depth playersOpt mus M0 Sopt Stildeopt Nopt Ntildeopt =
        .error (msgDepth depth)) ∧
    ((1 ≤ (effPlayers playersOpt Sopt M0).length ∧
        (effPlayers playersOpt Sopt M0).length ≤ mus.length ∧ mus.length ≤ 10) →
      (0 ≤ depth ∧ depth ≤ 8) →
      main depth playersOpt mus M0 Sopt Stildeopt Nopt Ntildeopt =
        .ok (explore (effPlayers playersOpt Sopt M0) mus depth.toNat
            (mkState
              (Sopt.getD (zeros2 (effPlayers playersOpt Sopt M0).length mus.length))
              (Stildeopt.getD (zeros2 (effPlayers playersOpt Sopt M0).length mus.length))
              (Nopt.getD (zeros2 (effPlayers playersOpt Sopt M0).length mus.length))
              (Ntildeopt.getD (zeros2 (effPlayers playersOpt Sopt M0).length mus.length))
              0),
          get_unique_leafs (explore (effPlayers playersOpt Sopt M0) mus depth.toNat
            (mkState
              (Sopt.getD (zeros2 (effPlayers playersOpt Sopt M0).length mus.length))
              (Stildeopt.getD (zeros2 (effPlayers playersOpt Sopt M0).length mus.length))
              (Nopt.getD (zeros2 (effPlayers playersOpt Sopt M0).length mus.length))
              (Ntildeopt.getD (zeros2 (effPlayers playersOpt Sopt M0).length mus.length))
              0)))) := by
  refine ⟨fun h => ?_, fun hMK hd => ?_, fun hMK hd => ?_⟩
  · rw [main, if_pos h]
  · rw [main, if_neg (not_not_intro hMK), if_pos hd]
  · rw [main, if_neg (not_not_intro hMK), if_neg (not_not_intro hd)]

/-- Witness for C9: `M = 2 > K = 1` is rejected with the `M`/`K` message. -/
theorem claim9_main_guards_witness :
    (¬ (1 ≤ (effPlayers (some [FixedArm, FixedArm]) none 2).length ∧
        (effPlayers (some [FixedArm, FixedArm]) none 2).length ≤
          ([(1 : ℚ)/2] : List ℚ).length ∧ ([(1 : ℚ)/2] : List ℚ).length ≤ 10)) ∧
    main 1 (some [FixedArm, FixedArm]) [(1 : ℚ)/2] 2 none none none none =
      .error (msgMK (effPlayers (some [FixedArm, FixedArm]) none 2).length
        ([(1 : ℚ)/2] : List ℚ).length) :=
  ⟨by decide,
   (claim9_main_guards 1 (some [FixedArm, FixedArm]) [(1 : ℚ)/2] 2
     none none none none).1 (by decide)⟩

/-- C10: the tie-set helper returns a non-empty set on any non-empty index
vector (the maximum is attained), so when every player's decision rule
returns a non-empty set, the number of joint decision vectors is at least 1
and the probability division is never by zero. -/
theorem claim10_no_empty_tie_sets :
    (∀ (α : Type) [LinearOrder α] (l : List α),
      l ≠ [] → choices_from_indexes l ≠ []) ∧
    (∀ (players : List Policy) (s : State),
      (∀ d ∈ allDecisions players s, d ≠ []) →
        1 ≤ numberOfDecisions (allDecisions players s) ∧
        ((numberOfDecisions (allDecisions players s) : ℚ)) ≠ 0) := by
  constructor
  · intro α _ l h
    exact choices_from_indexes_ne_nil h
  · intro players s h
    have hpos := numberOfDecisions_pos h
    exact ⟨hpos, Nat.cast_ne_zero.2 (by omega)⟩

/-- Witness for C10: a rational index vector with a tie, and the all-zero
`M = K = 1` root. -/
theorem claim10_no_empty_tie_sets_witness :
    ((([(1 : ℚ), 2, 2] : List ℚ) ≠ []) ∧
      choices_from_indexes ([(1 : ℚ), 2, 2] : List ℚ) ≠ []) ∧
    ((∀ d ∈ allDecisions [FixedArm] (mkState [[0]] [[0]] [[0]] [[0]] 0), d ≠ []) ∧
      1 ≤ numberOfDecisions
        (allDecisions [FixedArm] (mkState [[0]] [[0]] [[0]] [[0]] 0)) ∧
      ((numberOfDecisions
        (allDecisions [FixedArm] (mkState [[0]] [[0]] [[0]] [[0]] 0)) : ℚ)) ≠ 0) :=
  ⟨⟨by decide, claim10_no_empty_tie_sets.1 ℚ ([(1 : ℚ), 2, 2]) (by decide)⟩,
   ⟨by decide,
    claim10_no_empty_tie_sets.2 [FixedArm] (mkState [[0]] [[0]] [[0]] [[0]] 0)
      (by decide)⟩⟩

end MPBandits

